import Mathlib

/-!
Shallow embedding of the half-edge mesh library in src/halfedgemesh.js.

Modelling conventions:
* The mutually-referencing JS object graph (HEdge / HVertex / HFace) is
  represented as an arena: three lists owned by a Mesh record, with all
  cross references stored as indices.  A JS null reference is Option.none.
* JS numbers are modelled by an arbitrary linear ordered field; the
  external numeric library functions used by the code (Math.tan,
  glMatrix vec3.angle, and the square root inside vec3.length and
  vec3.normalize) are passed in as an abstract NumOps record, since they
  are external collaborators, not code of this repository.
* A JS exception (TypeError from dereferencing null / undefined) and a
  non-terminating traversal both make an operation produce Option.none;
  loops are run on fuel of one more than the number of half-edges, which
  bounds every terminating traversal of the deterministic step maps used
  by the code.
* Division in the field is total (x / 0 = 0), standing in for the
  IEEE non-finite values JS would produce; the places where the code
  divides by zero are analysed explicitly.
-/

/-- Component triple standing for a glMatrix vec3 value. -/
abbrev Vec3 (α : Type) := α × α × α

section VecOps

variable {α : Type} [LinearOrderedField α]

/-- Componentwise addition, as in vec3.add / the additive part of scaleAndAdd. -/
def vadd (u v : Vec3 α) : Vec3 α := (u.1 + v.1, u.2.1 + v.2.1, u.2.2 + v.2.2)

/-- Componentwise subtraction, as in vec3.subtract. -/
def vsub (u v : Vec3 α) : Vec3 α := (u.1 - v.1, u.2.1 - v.2.1, u.2.2 - v.2.2)

/-- Scalar multiple, as in vec3.scale. -/
def vsmul (c : α) (v : Vec3 α) : Vec3 α := (c * v.1, c * v.2.1, c * v.2.2)

/-- Componentwise product, as in vec3.multiply. -/
def vmulv (u v : Vec3 α) : Vec3 α := (u.1 * v.1, u.2.1 * v.2.1, u.2.2 * v.2.2)

/-- Componentwise quotient, as in vec3.divide. -/
def vdivv (u v : Vec3 α) : Vec3 α := (u.1 / v.1, u.2.1 / v.2.1, u.2.2 / v.2.2)

/-- Dot product of two component triples. -/
def vdot (u v : Vec3 α) : α := u.1 * v.1 + u.2.1 * v.2.1 + u.2.2 * v.2.2

/-- Cross product, as in vec3.cross. -/
def vcross (u v : Vec3 α) : Vec3 α :=
  (u.2.1 * v.2.2 - u.2.2 * v.2.1,
   u.2.2 * v.1 - u.1 * v.2.2,
   u.1 * v.2.1 - u.2.1 * v.1)

/-- The triple with all components c, as built by vec3.fromValues(c, c, c). -/
def vconst (c : α) : Vec3 α := (c, c, c)

/-- The zero triple, as built by vec3.create(). -/
def vzero : Vec3 α := ((0 : α), (0 : α), (0 : α))

end VecOps

/-- The external numeric functions the code calls: Math.tan, vec3.angle and
the square root used inside vec3.length and vec3.normalize.  They belong to
the JS standard library / glMatrix, which are external collaborators. -/
structure NumOps (α : Type) where
  sqrt : α → α
  tan : α → α
  angle : Vec3 α → Vec3 α → α

section NumVec

variable {α : Type} [LinearOrderedField α]

/-- vec3.length: square root of the sum of squares. -/
def vlen (ops : NumOps α) (v : Vec3 α) : α := ops.sqrt (vdot v v)

/-- vec3.normalize: glMatrix computes the squared length, replaces it by the
reciprocal of its square root only when it is positive, and scales by the
result, so the zero vector is scaled by zero and stays zero. -/
def vnormalize (ops : NumOps α) (v : Vec3 α) : Vec3 α :=
  let q := vdot v v
  let len := if 0 < q then 1 / ops.sqrt q else q
  vsmul len v

end NumVec

/-- Arena record for a half edge: head vertex, owning face (none on the
boundary), opposite half edge, and the previous / next half edges around
the owning face, all as indices, with none standing for a JS null. -/
structure HEdge where
  head : Option Nat
  face : Option Nat
  pair : Option Nat
  prev : Option Nat
  next : Option Nat
deriving Repr, DecidableEq

/-- Arena record for a vertex: position, color, the stable index stored in
the ID field at construction, and one outgoing half edge. -/
structure HVertex (α : Type) where
  pos : Vec3 α
  color : Vec3 α
  id : Nat
  h : Option Nat
deriving Repr, DecidableEq

/-- Arena record for a face: one half edge on its boundary loop. -/
structure HFace where
  h : Option Nat
deriving Repr, DecidableEq

/-- The half-edge mesh: the three entity sequences owned by HedgeMesh. -/
structure Mesh (α : Type) where
  vertices : List (HVertex α)
  edges : List HEdge
  faces : List HFace
deriving Repr, DecidableEq

namespace Mesh

variable {α : Type} [LinearOrderedField α]

/-- Replace the entry at an index if it exists (a JS field write through an
object reference; out-of-range indices never arise from the code). -/
def listModify {β : Type} (l : List β) (i : Nat) (f : β → β) : List β :=
  match l[i]? with
  | some x => l.set i (f x)
  | none => l

/-- Apply a field update to the half edge at an index. -/
def modifyEdge (m : Mesh α) (i : Nat) (f : HEdge → HEdge) : Mesh α :=
  { m with edges := listModify m.edges i f }

end Mesh

section Queries

variable {α : Type} [LinearOrderedField α]

/-- One step of the vertex-ring walk used by the vertex operators:
current.prev.pair, with none for a thrown TypeError on a null link. -/
def ringStep (m : Mesh α) (cur : Nat) : Option Nat := do
  let e ← m.edges[cur]?
  let p ← e.prev
  let pe ← m.edges[p]?
  pe.pair

/-- The do/while ring walk shared by getVertexNeighbors and
getAttachedFaces: collect the current edge, step to current.prev.pair and
stop when the first edge recurs.  Fuel bounds the walk; one more unit
than the number of half-edges suffices for every run that terminates. -/
def ringAux (m : Mesh α) (first : Nat) (cur : Nat) : Nat → Option (List Nat)
  | 0 => none
  | fuel + 1 => do
    let nxt ← ringStep m cur
    if nxt = first then pure [cur]
    else do
      let rest ← ringAux m first nxt fuel
      pure (cur :: rest)

/-- HVertex.getVertexNeighbors: empty for a vertex with no outgoing edge,
otherwise the heads (possibly null) of the edges of the ring walk. -/
def getVertexNeighbors (m : Mesh α) (vi : Nat) : Option (List (Option Nat)) := do
  let V ← m.vertices[vi]?
  match V.h with
  | none => pure []
  | some first => do
    let es ← ringAux m first first (m.edges.length + 1)
    es.mapM (fun c => (m.edges[c]?).map HEdge.head)

/-- HVertex.getAttachedFaces: empty for a vertex with no outgoing edge,
otherwise the non-null faces of the edges of the ring walk. -/
def getAttachedFaces (m : Mesh α) (vi : Nat) : Option (List Nat) := do
  let V ← m.vertices[vi]?
  match V.h with
  | none => pure []
  | some first => do
    let es ← ringAux m first first (m.edges.length + 1)
    let hs ← es.mapM (fun c => m.edges[c]?)
    pure (hs.filterMap HEdge.face)

/-- The search loop of HVertex.getEdgeBetweenVertex: compare the head
position of the current ring edge with the target position, return the
edge on an exact match, return null after a whole cycle, and fail (none)
on a null dereference or a walk that never closes. -/
def ebvAux (m : Mesh α) (tpos : Vec3 α) (first : Nat) (cur : Nat) :
    Nat → Option (Option Nat)
  | 0 => none
  | fuel + 1 => do
    let e ← m.edges[cur]?
    let hd ← e.head
    let HV ← m.vertices[hd]?
    if HV.pos = tpos then pure (some cur)
    else do
      let nxt ← ringStep m cur
      if nxt = first then pure none
      else ebvAux m tpos first nxt fuel

/-- HVertex.getEdgeBetweenVertex: null argument gives null; otherwise scan
the ring for the first edge whose head position exactly equals the
argument position.  A vertex whose outgoing-edge field is null makes the
loop dereference null (none), unlike the other ring queries. -/
def getEdgeBetweenVertex (m : Mesh α) (vi : Nat) (other : Option Nat) :
    Option (Option Nat) :=
  match other with
  | none => some none
  | some ov => do
    let V ← m.vertices[vi]?
    let OV ← m.vertices[ov]?
    match V.h with
    | none => none
    | some first => ebvAux m OV.pos first first (m.edges.length + 1)

/-- HEdge.getVertices: the two attached vertices, or the empty list when
the head, the previous edge, or the previous head is uninitialised. -/
def hedgeGetVertices (m : Mesh α) (e : HEdge) : List Nat :=
  match e.head, e.prev with
  | some hd, some p =>
    match m.edges[p]? with
    | some pe =>
      match pe.head with
      | some ph => [hd, ph]
      | none => []
    | none => []
  | _, _ => []

/-- The while loop of HFace.getEdges: walk next from the edge after the
start until the start recurs, failing on a null link or a walk that never
returns to the start. -/
def faceChainAux (m : Mesh α) (start : Nat) (cur : Option Nat) :
    Nat → Option (List Nat)
  | 0 => none
  | fuel + 1 =>
    if cur = some start then pure []
    else do
      let c ← cur
      let e ← m.edges[c]?
      let rest ← faceChainAux m start e.next fuel
      pure (c :: rest)

/-- HFace.getEdges: empty for a face with no boundary edge, otherwise the
start edge followed by the next-walk back to it. -/
def faceGetEdges (m : Mesh α) (fi : Nat) : Option (List Nat) := do
  let F ← m.faces[fi]?
  match F.h with
  | none => pure []
  | some h0 => do
    let e ← m.edges[h0]?
    let rest ← faceChainAux m h0 e.next (m.edges.length + 1)
    pure (h0 :: rest)

/-- HFace.getVertices: the heads of the same next-walk. -/
def faceGetVertices (m : Mesh α) (fi : Nat) : Option (List (Option Nat)) := do
  let es ← faceGetEdges m fi
  es.mapM (fun c => (m.edges[c]?).map HEdge.head)

/-- HFace.getArea: fan-triangulate from the first loop vertex and sum the
half magnitudes of the triangle cross products. -/
def faceArea (ops : NumOps α) (m : Mesh α) (fi : Nat) : Option α := do
  let vs ← faceGetVertices m fi
  let v0 ← vs[0]?
  let i0 ← v0
  let V0 ← m.vertices[i0]?
  (List.range' 1 (vs.length - 2)).foldlM (fun area i => do
      let a ← vs[i]?
      let ia ← a
      let VA ← m.vertices[ia]?
      let b ← vs[i + 1]?
      let ib ← b
      let VB ← m.vertices[ib]?
      pure (area + vlen ops (vcross (vsub VA.pos V0.pos) (vsub VB.pos V0.pos)) / 2))
    0

/-- HFace.getNormal: the unnormalised cross product of the first two fan
edges of the loop. -/
def faceNormalVec (m : Mesh α) (fi : Nat) : Option (Vec3 α) := do
  let vs ← faceGetVertices m fi
  let a ← vs[0]?
  let ia ← a
  let VA ← m.vertices[ia]?
  let b ← vs[1]?
  let ib ← b
  let VB ← m.vertices[ib]?
  let c ← vs[2]?
  let ic ← c
  let VC ← m.vertices[ic]?
  pure (vcross (vsub VB.pos VA.pos) (vsub VC.pos VA.pos))

/-- HVertex.getNormal: accumulate area-scaled face normals over the
attached faces, divide componentwise by the face count, and normalize. -/
def vertexGetNormal (ops : NumOps α) (m : Mesh α) (vi : Nat) : Option (Vec3 α) := do
  let fs ← getAttachedFaces m vi
  let nrm ← fs.foldlM (fun acc f => do
      let a ← faceArea ops m f
      let n ← faceNormalVec m f
      pure (vadd acc (vmulv n (vconst a))))
    vzero
  pure (vnormalize ops (vdivv nrm (vconst ((fs.length : α)))))

end Queries

section Geometric

variable {α : Type} [LinearOrderedField α]

/-- The dereference chain prev.pair.head, shared by the two opposite
vertex resolutions of laplacianSmoothSharpen: the first opposite vertex
is this chain from the edge, the second is this chain from its pair. -/
def prevPairHead (m : Mesh α) (e : HEdge) : Option Nat := do
  let p ← e.prev
  let pe ← m.edges[p]?
  let pp ← pe.pair
  let ppe ← m.edges[pp]?
  ppe.head

/-- The cotangent weight block of laplacianSmoothSharpen for one neighbor
edge: resolve the two opposite vertices through prev.pair and
pair.prev.pair, take the angles they make with the two endpoint
positions, and average the clamped cotangents. -/
def lapWeight (ops : NumOps α) (m : Mesh α) (ei : Nat) (pI pJ : Vec3 α) :
    Option α := do
  let e ← m.edges[ei]?
  let h1 ← prevPairHead m e
  let W1 ← m.vertices[h1]?
  let q ← e.pair
  let qe ← m.edges[q]?
  let h2 ← prevPairHead m qe
  let W2 ← m.vertices[h2]?
  let alpha : α := ops.angle (vsub pI W1.pos) (vsub pJ W1.pos)
  let beta : α := ops.angle (vsub pI W2.pos) (vsub pJ W2.pos)
  let cotAlpha : α := if ops.tan alpha ≤ 0 then 1 else 1 / ops.tan alpha
  let cotBeta : α := if ops.tan beta ≤ 0 then 1 else 1 / ops.tan beta
  pure ((cotAlpha + cotBeta) / 2)

/-- Pass 1 of laplacianSmoothSharpen for one vertex: accumulate the total
cotangent weight and the weighted neighbor positions over the neighbor
list, form the weighted average, and move with or against the delta. -/
def lapNewPos (ops : NumOps α) (m : Mesh α) (smooth : Bool) (vi : Nat) :
    Option (Vec3 α) := do
  let V ← m.vertices[vi]?
  let neighbours ← getVertexNeighbors m vi
  let sums ← neighbours.foldlM (fun acc nOpt => do
      let eOpt ← getEdgeBetweenVertex m vi nOpt
      let ei ← eOpt
      let nj ← nOpt
      let NV ← m.vertices[nj]?
      let w ← lapWeight ops m ei V.pos NV.pos
      pure (acc.1 + w, vadd acc.2 (vsmul w NV.pos)))
    ((0 : α), vzero)
  let qPos := vsmul (1 / sums.1) sums.2
  let deltaP := vsub qPos V.pos
  pure (if smooth then vadd V.pos (vsmul 1 deltaP)
        else vadd V.pos (vsmul (-1) deltaP))

/-- Pass 2 of laplacianSmoothSharpen: overwrite every vertex position with
the staged position of the same index. -/
def commitPositions (m : Mesh α) (ps : List (Vec3 α)) : Mesh α :=
  { m with vertices := m.vertices.zipWith (fun V p => { V with pos := p }) ps }

/-- HedgeMesh.laplacianSmoothSharpen: stage every new position from the
unmodified mesh, then commit them all. -/
def laplacianSmoothSharpen (ops : NumOps α) (m : Mesh α) (smooth : Bool) :
    Option (Mesh α) := do
  let ps ← (List.range m.vertices.length).mapM (lapNewPos ops m smooth)
  pure (commitPositions m ps)

/-- Find the staged position recorded for a vertex slot. -/
def slotFind (i : Nat) : List (Nat × Vec3 α) → Option (Vec3 α)
  | [] => none
  | p :: rest => if p.1 = i then some p.2 else slotFind i rest

/-- A hypothetical reordered run of pass 1: stage the per-vertex positions
following an arbitrary processing order, then commit each to its own
slot.  Used to state that the committed result is order independent. -/
def laplacianPermuted (ops : NumOps α) (m : Mesh α) (smooth : Bool)
    (order : List Nat) : Option (Mesh α) := do
  let pairs ← order.mapM (fun i => do
      let p ← lapNewPos ops m smooth i
      pure (i, p))
  let ps ← (List.range m.vertices.length).mapM (fun i => slotFind i pairs)
  pure (commitPositions m ps)

/-- One iteration of the inflateDeflate loop: move the vertex of the given
index along its normal computed from the current, partially updated
mesh. -/
def inflateStep (ops : NumOps α) (factor : α) (m : Mesh α) (i : Nat) :
    Option (Mesh α) := do
  let V ← m.vertices[i]?
  let nrm ← vertexGetNormal ops m i
  pure { m with
         vertices := m.vertices.set i { V with pos := vadd V.pos (vsmul factor nrm) } }

/-- The first k iterations of the inflateDeflate loop. -/
def inflateUpTo (ops : NumOps α) (m : Mesh α) (factor : α) (k : Nat) :
    Option (Mesh α) :=
  (List.range k).foldlM (inflateStep ops factor) m

/-- HedgeMesh.inflateDeflate: run the loop over every vertex in order. -/
def inflateDeflate (ops : NumOps α) (m : Mesh α) (factor : α) : Option (Mesh α) :=
  inflateUpTo ops m factor m.vertices.length

end Geometric

section Construction

variable {α : Type} [LinearOrderedField α]

/-- The directed-edge table str2Hedge.  Its JS keys are underscore-joined
id pairs, which for..in visits in first-insertion order; assignment
replaces the value of an existing key in place, otherwise appends. -/
def jsSet (l : List ((Nat × Nat) × Nat)) (k : Nat × Nat) (v : Nat) :
    List ((Nat × Nat) × Nat) :=
  match l with
  | [] => [(k, v)]
  | (k1, v1) :: rest => if k1 = k then (k, v) :: rest else (k1, v1) :: jsSet rest k v

/-- Lookup of a directed-pair key in the table. -/
def assocFind (k : Nat × Nat) : List ((Nat × Nat) × Nat) → Option Nat
  | [] => none
  | (k1, v1) :: rest => if k1 = k then some v1 else assocFind k rest

/-- The boundary-edge table.  Its JS keys are numeric strings, which
for..in visits in ascending numeric order, so it is kept sorted by key;
assignment replaces the value of an existing key in place. -/
def bInsert (k v : Nat) : List (Nat × Nat) → List (Nat × Nat)
  | [] => [(k, v)]
  | (k1, v1) :: rest =>
    if k = k1 then (k, v) :: rest
    else if k < k1 then (k, v) :: (k1, v1) :: rest
    else (k1, v1) :: bInsert k v rest

/-- Lookup of a vertex-id key in the boundary-edge table. -/
def bFind (k : Nat) : List (Nat × Nat) → Option Nat
  | [] => none
  | (k1, v1) :: rest => if k1 = k then some v1 else bFind k rest

/-- The consecutive CCW directed vertex pairs of one face: the pair at
position k is the ids at positions k and (k+1) mod n. -/
def faceKeys (ids : List Nat) : List (Nat × Nat) := ids.zip (ids.rotate 1)

/-- Update the half edge next field. -/
def setNextF (x : Option Nat) (e : HEdge) : HEdge := { e with next := x }

/-- Update the half edge prev field. -/
def setPrevF (x : Option Nat) (e : HEdge) : HEdge := { e with prev := x }

/-- Update the half edge pair field. -/
def setPairF (x : Option Nat) (e : HEdge) : HEdge := { e with pair := x }

/-- HedgeMesh.addHalfEdge: build a half edge with the given head and
face, point the tail vertex at it, append it, and return its index;
fails when the tail vertex is undefined (an out-of-range input id). -/
def addHalfEdgeM (m : Mesh α) (v1 v2 fi : Nat) : Option (Mesh α × Nat) := do
  let V1 ← m.vertices[v1]?
  let ei := m.edges.length
  let e : HEdge := { head := if v2 < m.vertices.length then some v2 else none,
                     face := some fi, pair := none, prev := none, next := none }
  pure ({ m with vertices := m.vertices.set v1 { V1 with h := some ei },
                 edges := m.edges ++ [e] }, ei)

/-- One iteration of the half-edge-adding loop of step 3: add the half
edge of one directed pair, repoint the face handle at it, and record it
in the directed-edge table. -/
def addFaceEdge (fi : Nat) (r : Mesh α × List ((Nat × Nat) × Nat)) (kv : Nat × Nat) :
    Option (Mesh α × List ((Nat × Nat) × Nat)) := do
  let q ← addHalfEdgeM r.1 kv.1 kv.2 fi
  let m := { q.1 with faces := Mesh.listModify q.1.faces fi (fun _ => { h := some q.2 }) }
  pure (m, jsSet r.2 kv q.2)

/-- One iteration of the linking loop of step 3: read the freshly set
outgoing edges of the two pair vertices and install next and prev. -/
def linkFaceEdge (m : Mesh α) (kv : Nat × Nat) : Option (Mesh α) := do
  let V1 ← m.vertices[kv.1]?
  let e1 ← V1.h
  let V2 ← m.vertices[kv.2]?
  let e2 ← V2.h
  pure (Mesh.modifyEdge (Mesh.modifyEdge m e1 (setNextF (some e2))) e2
          (setPrevF (some e1)))

/-- One face of step 3 of loadFileFromLines: push the face record, add
its half edges while recording them in the directed-edge table and
repointing the face handle at each, then link next and prev around the
loop through the tail vertices' freshly set outgoing edges. -/
def buildFace (st : Mesh α × List ((Nat × Nat) × Nat)) (ids : List Nat) :
    Option (Mesh α × List ((Nat × Nat) × Nat)) := do
  let fi := st.1.faces.length
  let m0 := { st.1 with faces := st.1.faces ++ [{ h := none }] }
  let r1 ← (faceKeys ids).foldlM (addFaceEdge fi) (m0, st.2)
  let m2 ← (faceKeys ids).foldlM linkFaceEdge r1.1
  pure (m2, r1.2)

/-- One table entry of step 4 of loadFileFromLines: give the half edge of
the directed pair its opposite when the reversed pair exists, otherwise
synthesise a boundary twin with a null face, pair the two up, register
the twin under its tail vertex id and append it. -/
def pairEntry (s : List ((Nat × Nat) × Nat)) (mb : Mesh α × List (Nat × Nat))
    (kv : (Nat × Nat) × Nat) : Mesh α × List (Nat × Nat) :=
  let m := mb.1
  match assocFind (kv.1.2, kv.1.1) s with
  | some j => (Mesh.modifyEdge m kv.2 (setPairF (some j)), mb.2)
  | none =>
    let j := m.edges.length
    let h2 : HEdge := { head := if kv.1.1 < m.vertices.length then some kv.1.1 else none,
                        face := none, pair := some kv.2, prev := none, next := none }
    ({ m with edges := Mesh.listModify m.edges kv.2 (setPairF (some j)) ++ [h2] },
     bInsert kv.1.2 j mb.2)

/-- Step 4 of loadFileFromLines: fold over the directed-edge table in its
iteration order; lookups go to the full table, which step 4 never
modifies. -/
def pairPhase (m : Mesh α) (s : List ((Nat × Nat) × Nat)) :
    Mesh α × List (Nat × Nat) :=
  s.foldl (pairEntry s) (m, [])

/-- One table entry of step 5 of loadFileFromLines: link a boundary edge
whose next is still null to the boundary edge registered under its head
vertex id; a null head or a missing registration throws (aborting the
whole load). -/
def linkBoundaryEntry (b : List (Nat × Nat)) (m : Mesh α) (kv : Nat × Nat) :
    Option (Mesh α) := do
  let e ← m.edges[kv.2]?
  if e.next = none then do
    let a ← e.head
    match bFind a b with
    | some j2 =>
      pure (Mesh.modifyEdge (Mesh.modifyEdge m kv.2 (setNextF (some j2))) j2
              (setPrevF (some kv.2)))
    | none => none
  else pure m

/-- Step 5 of loadFileFromLines over the boundary table in ascending key
order. -/
def linkBoundaryPhase (b : List (Nat × Nat)) (m : Mesh α) : Option (Mesh α) :=
  b.foldlM (linkBoundaryEntry b) m

/-- Steps 2 to 5 of HedgeMesh.loadFileFromLines, taking the consistently
oriented vertex/color/face description produced by the external BasicMesh
preprocessing (an out-of-scope collaborator per the design): create the
vertices with sequential ids, add faces and half edges, pair opposites or
synthesise boundary twins, and link the boundary loops. -/
def loadMesh (vcs : List (Vec3 α × Vec3 α)) (fcs : List (List Nat)) :
    Option (Mesh α) := do
  let m0 : Mesh α :=
    { vertices := vcs.enum.map
        (fun p => { pos := p.2.1, color := p.2.2, id := p.1, h := none }),
      edges := [], faces := [] }
  let r ← fcs.foldlM buildFace (m0, [])
  let mb := pairPhase r.1 r.2
  linkBoundaryPhase mb.2 mb.1

end Construction

section SpecSide

variable {α : Type} [LinearOrderedField α]

/-- Modelled from the spec: the first vertex opposite a neighbor edge,
the head of edge.prev.pair. -/
def specOpp1 (m : Mesh α) (ei : Nat) : Option Nat := do
  let e ← m.edges[ei]?
  prevPairHead m e

/-- Modelled from the spec: the second vertex opposite a neighbor edge,
the head of edge.pair.prev.pair. -/
def specOpp2 (m : Mesh α) (ei : Nat) : Option Nat := do
  let e ← m.edges[ei]?
  let q ← e.pair
  let qe ← m.edges[q]?
  prevPairHead m qe

/-- Modelled from the spec: the cotangent with the degenerate-angle
clamp; when the tangent is not positive the cotangent is taken to be one
instead of performing the division. -/
def specCot (ops : NumOps α) (theta : α) : α :=
  if ops.tan theta ≤ 0 then 1 else 1 / ops.tan theta

/-- Modelled from the spec: the cotangent edge weight, the mean of the
clamped cotangents of the angles at the two opposite vertices between
the vectors from the opposite vertex to the two edge endpoints. -/
def specCotWeight (ops : NumOps α) (m : Mesh α) (ei : Nat) (pI pJ : Vec3 α) :
    Option α := do
  let o1 ← specOpp1 m ei
  let O1 ← m.vertices[o1]?
  let o2 ← specOpp2 m ei
  let O2 ← m.vertices[o2]?
  pure ((specCot ops (ops.angle (vsub pI O1.pos) (vsub pJ O1.pos)) +
         specCot ops (ops.angle (vsub pI O2.pos) (vsub pJ O2.pos))) / 2)

/-- Modelled from the spec: the vertex normal as the sum of area-scaled
unnormalised face normals over the attached faces, divided by the count
of attached faces, then normalised. -/
def specVertexNormal (ops : NumOps α) (m : Mesh α) (vi : Nat) : Option (Vec3 α) := do
  let fs ← getAttachedFaces m vi
  let terms ← fs.mapM (fun f => do
      let a ← faceArea ops m f
      let n ← faceNormalVec m f
      pure (vsmul a n))
  pure (vnormalize ops (vsmul (1 / (fs.length : α)) (terms.foldl vadd vzero)))

/-- The first-match scan the claim about getEdgeBetweenVertex describes:
walk the already-computed ring edge list in order, return the first edge
whose head position equals the target, and null after the full cycle. -/
def scanHeads (m : Mesh α) (t : Vec3 α) : List Nat → Option (Option Nat)
  | [] => some none
  | c :: rest => do
    let e ← m.edges[c]?
    let hd ← e.head
    let HV ← m.vertices[hd]?
    if HV.pos = t then pure (some c) else scanHeads m t rest

/-- Equality of everything except vertex positions: the collections, all
topology references, and every vertex id and color. -/
def topoEq (m m2 : Mesh α) : Prop :=
  m2.edges = m.edges ∧ m2.faces = m.faces ∧
  m2.vertices.length = m.vertices.length ∧
  ∀ i : Nat, (m2.vertices[i]?).map (fun V : HVertex α => (V.id, V.color, V.h)) =
       (m.vertices[i]?).map (fun V : HVertex α => (V.id, V.color, V.h))

end SpecSide

section ConstructionShape

variable {α : Type} [LinearOrderedField α]

/-- Iterate the next reference a given number of times from an edge. -/
def nextIter (m : Mesh α) : Nat → Nat → Option Nat
  | 0, e => some e
  | k + 1, e => do
    let he ← m.edges[e]?
    let nx ← he.next
    nextIter m k nx

/-- All directed vertex pairs of the face list, in creation order. -/
def keysOf (fcs : List (List Nat)) : List (Nat × Nat) := fcs.flatMap faceKeys

/-- The directed-edge table as step 3 leaves it: the keys in creation
order, each bound to its creation index. -/
def enumTable (ks : List (Nat × Nat)) : List ((Nat × Nat) × Nat) :=
  ks.enum.map (fun p => (p.2, p.1))

/-- The half-edge block step 3 builds for one face at a base offset,
once its next and prev links are in place. -/
def linkedBlock (base fi : Nat) (ids : List Nat) : List HEdge :=
  (List.range ids.length).map (fun k =>
    { head := some (ids.getD ((k + 1) % ids.length) 0),
      face := some fi, pair := none,
      next := some (base + (k + 1) % ids.length),
      prev := some (base + (k + ids.length - 1) % ids.length) })

/-- The index of the first half edge of a face among the interior edges. -/
def baseOf (fcs : List (List Nat)) (fi : Nat) : Nat :=
  ((fcs.take fi).map List.length).sum

/-- The half-edge block of one face while its links are being installed:
after j link iterations the next references of the first j edges and the
prev references of their successors are in place. -/
def partialBlock (base fi n j : Nat) (ids : List Nat) : List HEdge :=
  (List.range n).map (fun t =>
    { head := some (ids.getD ((t + 1) % n) 0),
      face := some fi,
      pair := none,
      next := if t < j then some (base + (t + 1) % n) else none,
      prev := if (1 ≤ t ∧ t ≤ j) ∨ (t = 0 ∧ j = n) then
                some (base + (t + n - 1) % n)
              else none })

/-- The face record step 3 leaves for one face: the last added half edge,
or none for an empty vertex list. -/
def face3 (base : Nat) (ids : List Nat) : HFace :=
  { h := if ids.length = 0 then none else some (base + ids.length - 1) }

/-- The face list step 3 builds. -/
def faces3 (base : Nat) : List (List Nat) → List HFace
  | [] => []
  | ids :: rest => face3 base ids :: faces3 (base + ids.length) rest

/-- The half-edge list step 3 builds: the linked blocks of the faces in
order. -/
def edges3 (base fi : Nat) : List (List Nat) → List HEdge
  | [] => []
  | ids :: rest => linkedBlock base fi ids ++ edges3 (base + ids.length) (fi + 1) rest

/-- The directed-edge table over a key list, binding each key to its
creation index. -/
def tableOfKeys (base : Nat) : List (Nat × Nat) → List ((Nat × Nat) × Nat)
  | [] => []
  | k :: rest => (k, base) :: tableOfKeys (base + 1) rest

/-- The directed-edge table step 3 builds over the whole face list. -/
def table3 (base : Nat) : List (List Nat) → List ((Nat × Nat) × Nat)
  | [] => []
  | ids :: rest => tableOfKeys base (faceKeys ids) ++ table3 (base + ids.length) rest

/-- The boundary twin step 4 synthesises for a pair whose reverse is
missing: head at the tail of the missing reverse, no face, paired back. -/
def twinE (a t : Nat) : HEdge :=
  { head := some a, face := none, pair := some t, prev := none, next := none }

/-- The half edge addHalfEdge builds for a directed pair with a valid
head, before any linking. -/
def edge1 (fi v2 : Nat) : HEdge :=
  { head := some v2, face := some fi, pair := none, prev := none, next := none }

end ConstructionShape

section Concrete

/-- Floor square root by bounded search, so that concrete evaluation
reduces inside the kernel. -/
def natSqrtLin (n : Nat) : Nat :=
  (List.range (n + 1)).foldl (fun acc k => if k * k ≤ n then k else acc) 0

/-- Square root on the rationals, exact on ratios of perfect squares;
a concrete instantiation for evaluating the embedding. -/
def ratSqrt (q : ℚ) : ℚ := (natSqrtLin q.num.toNat : ℚ) / (natSqrtLin q.den : ℚ)

/-- A concrete numeric instantiation over the rationals. -/
def ops0 : NumOps ℚ := { sqrt := ratSqrt, tan := fun x => x, angle := fun u v => vdot u v }

/-- Vertex data of a single right triangle in the plane. -/
def triVerts : List (Vec3 ℚ × Vec3 ℚ) :=
  [((0,0,0), (1,1,1)), ((1,0,0), (1,1,1)), ((0,1,0), (1,1,1))]

/-- Face list of the single triangle. -/
def triFaces : List (List Nat) := [[0,1,2]]

/-- The half-edge mesh the loader builds from the single triangle. -/
def triQ : Mesh ℚ :=
  { vertices := [{ pos := (0, 0, 0), color := (1, 1, 1), id := 0, h := some 0 },
                 { pos := (1, 0, 0), color := (1, 1, 1), id := 1, h := some 1 },
                 { pos := (0, 1, 0), color := (1, 1, 1), id := 2, h := some 2 }],
    edges := [{ head := some 1, face := some 0, pair := some 3, prev := some 2, next := some 1 },
              { head := some 2, face := some 0, pair := some 4, prev := some 0, next := some 2 },
              { head := some 0, face := some 0, pair := some 5, prev := some 1, next := some 0 },
              { head := some 0, face := none, pair := some 0, prev := some 4, next := some 5 },
              { head := some 1, face := none, pair := some 1, prev := some 5, next := some 3 },
              { head := some 2, face := none, pair := some 2, prev := some 3, next := some 4 }],
    faces := [{ h := some 2 }] }

/-- Vertex data of the triangle together with one isolated vertex. -/
def isoVerts : List (Vec3 ℚ × Vec3 ℚ) :=
  [((0,0,0), (1,1,1)), ((1,0,0), (1,1,1)), ((0,1,0), (1,1,1)), ((5,5,5), (2,2,2))]

/-- The half-edge mesh the loader builds from the triangle plus the
isolated vertex, whose outgoing edge stays null. -/
def isoQ : Mesh ℚ :=
  { vertices := [{ pos := (0, 0, 0), color := (1, 1, 1), id := 0, h := some 0 },
                 { pos := (1, 0, 0), color := (1, 1, 1), id := 1, h := some 1 },
                 { pos := (0, 1, 0), color := (1, 1, 1), id := 2, h := some 2 },
                 { pos := (5, 5, 5), color := (2, 2, 2), id := 3, h := none }],
    edges := triQ.edges,
    faces := [{ h := some 2 }] }

/-- The mesh the Laplacian smoothing pass produces from the triangle
mesh under the concrete numeric instantiation. -/
def triLapQ : Mesh ℚ :=
  { vertices := [{ pos := (1/2, 1/2, 0), color := (1, 1, 1), id := 0, h := some 0 },
                 { pos := (0, 1/2, 0), color := (1, 1, 1), id := 1, h := some 1 },
                 { pos := (1/2, 0, 0), color := (1, 1, 1), id := 2, h := some 2 }],
    edges := triQ.edges,
    faces := [{ h := some 2 }] }

/-- The mesh inflateDeflate with factor one produces from the triangle
mesh: each vertex was moved along the normal computed from the already
partially updated state. -/
def triInflQ : Mesh ℚ :=
  { vertices := [{ pos := (0, 0, 1), color := (1, 1, 1), id := 0, h := some 0 },
                 { pos := (2, 1, 1), color := (1, 1, 1), id := 1, h := some 1 },
                 { pos := (-1/3, 5/3, 2/3), color := (1, 1, 1), id := 2, h := some 2 }],
    edges := triQ.edges,
    faces := [{ h := some 2 }] }

end Concrete

/-! General lemmas about Option-monad list traversals, and small
componentwise vector identities, used throughout the development. -/

section HelperLemmas

variable {β : Type} {γ : Type}

theorem optBind_some {o : Option β} {f : β → Option γ} {c : γ}
    (h : (o >>= f) = some c) : ∃ b, o = some b ∧ f b = some c := by
  cases o with
  | none => simp at h
  | some b => exact ⟨b, rfl, by simpa using h⟩

theorem optMapM_some_length {f : β → Option γ} :
    ∀ {l : List β} {ys : List γ}, l.mapM f = some ys → ys.length = l.length := by
  intro l
  induction l with
  | nil =>
    intro ys h
    simp only [List.mapM_nil, Option.pure_def, Option.some.injEq] at h
    simp [← h]
  | cons a rest ih =>
    intro ys h
    rw [List.mapM_cons] at h
    rcases optBind_some h with ⟨b, hf, h2⟩
    rcases optBind_some h2 with ⟨bs, hr, h3⟩
    simp only [Option.pure_def, Option.some.injEq] at h3
    subst h3
    simp [ih hr]

theorem optMapM_some_getElem {f : β → Option γ} :
    ∀ {l : List β} {ys : List γ}, l.mapM f = some ys →
      ∀ {i : Nat} {a : β}, l[i]? = some a → ∃ b, f a = some b ∧ ys[i]? = some b := by
  intro l
  induction l with
  | nil => intro ys h i a ha; simp at ha
  | cons x rest ih =>
    intro ys h i a ha
    rw [List.mapM_cons] at h
    rcases optBind_some h with ⟨b, hf, h2⟩
    rcases optBind_some h2 with ⟨bs, hr, h3⟩
    simp only [Option.pure_def, Option.some.injEq] at h3
    subst h3
    cases i with
    | zero =>
      simp only [List.getElem?_cons_zero, Option.some.injEq] at ha
      subst ha
      exact ⟨b, hf, by simp⟩
    | succ i2 =>
      simp only [List.getElem?_cons_succ] at ha
      rcases ih hr ha with ⟨b2, hb2, hy2⟩
      exact ⟨b2, hb2, by simpa using hy2⟩

theorem optMapM_map {f : β → Option γ} {g : β → γ} :
    ∀ {l : List β}, (∀ a ∈ l, f a = some (g a)) → l.mapM f = some (l.map g) := by
  intro l
  induction l with
  | nil => intro h; rfl
  | cons x rest ih =>
    intro h
    rw [List.mapM_cons]
    have hx : f x = some (g x) := h x (by simp)
    have hr : rest.mapM f = some (rest.map g) := ih (fun a ha => h a (by simp [ha]))
    rw [hx, hr]
    simp

theorem optMapM_none {f : β → Option γ} {a : β} :
    ∀ {l : List β}, a ∈ l → f a = none → l.mapM f = none := by
  intro l
  induction l with
  | nil => intro h; simp at h
  | cons x rest ih =>
    intro hmem hfa
    rw [List.mapM_cons]
    rcases List.mem_cons.mp hmem with h | h
    · subst h; rw [hfa]; rfl
    · cases hf : f x with
      | none => rfl
      | some b => rw [ih h hfa]; rfl

end HelperLemmas

section VecLemmas

variable {α : Type} [LinearOrderedField α]

theorem vmulv_vconst_eq (n : Vec3 α) (a : α) : vmulv n (vconst a) = vsmul a n := by
  simp [vmulv, vconst, vsmul, mul_comm]

theorem vdivv_vconst_eq (S : Vec3 α) (c : α) : vdivv S (vconst c) = vsmul (1 / c) S := by
  simp [vdivv, vconst, vsmul, div_eq_mul_inv, one_div, mul_comm]

end VecLemmas

section ClaimEdgeVertices

variable {α : Type}

/-- C10: HEdge.getVertices returns the two-element list of the head and
the previous head exactly when the head, the prev reference and the prev
head are all non-none, returns the empty list otherwise, and never
returns a list of any other length; the embedding is a total function,
so no none reference is dereferenced. -/
theorem hedge_getVertices_pair_or_empty (m : Mesh α) (e : HEdge) :
    (∀ hd p ph, e.head = some hd → e.prev = some p →
        (m.edges[p]?).bind HEdge.head = some ph → hedgeGetVertices m e = [hd, ph]) ∧
    ((e.head = none ∨ e.prev = none ∨
        ∃ p, e.prev = some p ∧ (m.edges[p]?).bind HEdge.head = none) →
      hedgeGetVertices m e = []) ∧
    ((hedgeGetVertices m e).length = 0 ∨ (hedgeGetVertices m e).length = 2) := by
  refine ⟨?_, ?_, ?_⟩
  · intro hd p ph hh hp hph
    cases hq : m.edges[p]? with
    | none => simp [hq] at hph
    | some pe =>
      have hph2 : pe.head = some ph := by simpa [hq] using hph
      simp [hedgeGetVertices, hh, hp, hq, hph2]
  · intro hcase
    rcases hcase with hh | hp | ⟨p, hp, hph⟩
    · cases hp : e.prev <;> simp [hedgeGetVertices, hh, hp]
    · cases hh : e.head <;> simp [hedgeGetVertices, hh, hp]
    · cases hh : e.head with
      | none => cases hp2 : e.prev <;> simp [hedgeGetVertices, hh, hp2]
      | some hd =>
        cases hq : m.edges[p]? with
        | none => simp [hedgeGetVertices, hh, hp, hq]
        | some pe =>
          have hph2 : pe.head = none := by simpa [hq] using hph
          simp [hedgeGetVertices, hh, hp, hq, hph2]
  · cases hh : e.head with
    | none => cases hp : e.prev <;> simp [hedgeGetVertices, hh, hp]
    | some hd =>
      cases hp : e.prev with
      | none => simp [hedgeGetVertices, hh, hp]
      | some p =>
        cases hq : m.edges[p]? with
        | none => simp [hedgeGetVertices, hh, hp, hq]
        | some pe => cases hph : pe.head <;> simp [hedgeGetVertices, hh, hp, hq, hph]

/-- Witness for C10 on a concrete edge of the triangle mesh. -/
theorem hedge_getVertices_pair_or_empty_witness :
    hedgeGetVertices triQ
      { head := some 1, face := some 0, pair := some 3, prev := some 2, next := some 1 } =
      [1, 0] :=
  (hedge_getVertices_pair_or_empty triQ _).1 1 2 0 rfl rfl (by decide)

end ClaimEdgeVertices

section ClaimCotWeight

variable {α : Type} [LinearOrderedField α]

/-- C3: inside laplacianSmoothSharpen, the per-neighbor weight resolves
the opposite vertices as the head of edge.prev.pair and the head of
edge.pair.prev.pair, forms the angles at them between the vectors from
the opposite vertex to the two endpoint positions, and averages the
cotangents with the nonpositive-tangent clamp: the code block equals the
formula modelled from the spec, with both failing together. -/
theorem lapWeight_eq_specCotWeight (ops : NumOps α) (m : Mesh α) (ei : Nat)
    (pI pJ : Vec3 α) :
    lapWeight ops m ei pI pJ = specCotWeight ops m ei pI pJ := by
  simp only [lapWeight, specCotWeight, specOpp1, specOpp2, specCot]
  cases he : m.edges[ei]? with
  | none => rfl
  | some e =>
    simp only [Option.bind_eq_bind, Option.some_bind]
    cases h1 : prevPairHead m e with
    | none => rfl
    | some o1 =>
      simp only [Option.bind_eq_bind, Option.some_bind]
      cases hv1 : m.vertices[o1]? with
      | none => rfl
      | some O1 =>
        simp only [Option.bind_eq_bind, Option.some_bind]
        cases hq : e.pair with
        | none => rfl
        | some q =>
          simp only [Option.bind_eq_bind, Option.some_bind]
          cases hqe : m.edges[q]? with
          | none => rfl
          | some qe => simp only [Option.bind_eq_bind, Option.some_bind]

end ClaimCotWeight

section ClaimVertexNormal

variable {α : Type} [LinearOrderedField α]

theorem foldlM_add_eq_mapM {g : Nat → Option (Vec3 α)} :
    ∀ (fs : List Nat) (z : Vec3 α),
      fs.foldlM (fun acc f => (g f).bind (fun t => some (vadd acc t))) z
        = (fs.mapM g).map (fun ts : List (Vec3 α) => ts.foldl vadd z) := by
  intro fs
  induction fs with
  | nil => intro z; rfl
  | cons f rest ih =>
    intro z
    rw [List.foldlM_cons, List.mapM_cons]
    cases hg : g f with
    | none => rfl
    | some t =>
      simp only [Option.bind_eq_bind, Option.some_bind]
      rw [ih (vadd z t)]
      cases hr : rest.mapM g with
      | none => rfl
      | some ts => simp [List.foldl_cons]

/-- C4: for a vertex with at least one attached face, Vertex.getNormal
returns the normalisation of the sum over attached faces of the face
area times the unnormalised face normal, divided by the count of
attached faces (not by the total area): the code equals the formula
modelled from the spec. -/
theorem vertexGetNormal_eq_spec (ops : NumOps α) (m : Mesh α) (vi : Nat)
    (fs : List Nat) (hfs : getAttachedFaces m vi = some fs) (_hne : fs ≠ []) :
    vertexGetNormal ops m vi = specVertexNormal ops m vi := by
  unfold vertexGetNormal specVertexNormal
  rw [hfs]
  simp only [Option.bind_eq_bind, Option.some_bind, Option.pure_def]
  have hfold : (fun (acc : Vec3 α) (f : Nat) =>
        (faceArea ops m f).bind fun a =>
          (faceNormalVec m f).bind fun n => some (vadd acc (vmulv n (vconst a))))
      = (fun (acc : Vec3 α) (f : Nat) =>
          ((faceArea ops m f).bind fun a =>
            (faceNormalVec m f).bind fun n => some (vsmul a n)).bind
            (fun t => some (vadd acc t))) := by
    funext acc f
    cases faceArea ops m f with
    | none => rfl
    | some a =>
      cases faceNormalVec m f with
      | none => rfl
      | some n => simp [vmulv_vconst_eq]
  rw [hfold, foldlM_add_eq_mapM fs vzero]
  cases hts : fs.mapM (fun f =>
      (faceArea ops m f).bind fun a =>
        (faceNormalVec m f).bind fun n => some (vsmul a n)) with
  | none => rfl
  | some ts =>
    show some (vnormalize ops (vdivv (List.foldl vadd vzero ts) (vconst ((fs.length : α))))) = _
    rw [vdivv_vconst_eq]
    rfl

/-- Witness for C4 at vertex zero of the triangle mesh, which has one
attached face. -/
theorem vertexGetNormal_eq_spec_witness :
    getAttachedFaces triQ 0 = some [0] ∧ ([0] : List Nat) ≠ [] ∧
      vertexGetNormal ops0 triQ 0 = specVertexNormal ops0 triQ 0 :=
  ⟨by decide, by decide, vertexGetNormal_eq_spec ops0 triQ 0 [0] (by decide) (by decide)⟩

end ClaimVertexNormal

section ClaimEdgeBetween

variable {α : Type} [LinearOrderedField α]

theorem ebvAux_eq_scanHeads (m : Mesh α) (t : Vec3 α) (first : Nat) :
    ∀ (fuel cur : Nat) (es : List Nat), ringAux m first cur fuel = some es →
      ebvAux m t first cur fuel = scanHeads m t es := by
  intro fuel
  induction fuel with
  | zero => intro cur es h; simp [ringAux] at h
  | succ fuel ih =>
    intro cur es h
    unfold ringAux at h
    unfold ebvAux
    cases hstep : ringStep m cur with
    | none => rw [hstep] at h; simp at h
    | some nxt =>
      rw [hstep] at h
      simp only [Option.bind_eq_bind, Option.some_bind] at h
      have hecur : ∃ e, m.edges[cur]? = some e := by
        by_contra hno
        cases hc : m.edges[cur]? with
        | none => unfold ringStep at hstep; rw [hc] at hstep; simp at hstep
        | some e => exact hno ⟨e, hc⟩
      rcases hecur with ⟨e, hecur⟩
      rw [hecur]
      simp only [Option.bind_eq_bind, Option.some_bind]
      by_cases hnf : nxt = first
      · rw [if_pos hnf] at h
        have hes : [cur] = es := by simpa using h
        subst hes
        unfold scanHeads
        rw [hecur]
        simp only [Option.bind_eq_bind, Option.some_bind]
        cases hh : e.head with
        | none => rfl
        | some hd =>
          simp only [Option.bind_eq_bind, Option.some_bind]
          cases hv : m.vertices[hd]? with
          | none => rfl
          | some HV =>
            simp only [Option.bind_eq_bind, Option.some_bind]
            by_cases hpos : HV.pos = t
            · rw [if_pos hpos, if_pos hpos]
            · rw [if_neg hpos, if_neg hpos, if_pos hnf]
              rfl
      · rw [if_neg hnf] at h
        cases hrest : ringAux m first nxt fuel with
        | none => rw [hrest] at h; simp at h
        | some rest =>
          rw [hrest] at h
          simp only [Option.bind_eq_bind, Option.some_bind] at h
          have hes : cur :: rest = es := by simpa using h
          subst hes
          unfold scanHeads
          rw [hecur]
          simp only [Option.bind_eq_bind, Option.some_bind]
          cases hh : e.head with
          | none => rfl
          | some hd =>
            simp only [Option.bind_eq_bind, Option.some_bind]
            cases hv : m.vertices[hd]? with
            | none => rfl
            | some HV =>
              simp only [Option.bind_eq_bind, Option.some_bind]
              by_cases hpos : HV.pos = t
              · rw [if_pos hpos, if_pos hpos]
              · rw [if_neg hpos, if_neg hpos, if_neg hnf]
                exact ih nxt rest hrest

/-- C9: getEdgeBetweenVertex dereferences a null half edge when the
vertex has no outgoing edge and the argument is non-null (the embedding
fails with none rather than returning the null result or an empty list),
and under a closed prev.pair ring it returns the first ring edge whose
head position exactly equals the argument position, or null after the
full cycle without a match. -/
theorem getEdgeBetweenVertex_spec (m : Mesh α) (vi ov : Nat) (V OV : HVertex α)
    (hvi : m.vertices[vi]? = some V) (hov : m.vertices[ov]? = some OV) :
    (V.h = none → getEdgeBetweenVertex m vi (some ov) = none) ∧
    (∀ first es, V.h = some first →
      ringAux m first first (m.edges.length + 1) = some es →
      getEdgeBetweenVertex m vi (some ov) = scanHeads m OV.pos es) := by
  have hred : getEdgeBetweenVertex m vi (some ov)
      = ((m.vertices[vi]?).bind fun V2 => (m.vertices[ov]?).bind fun OV2 =>
          match V2.h with
          | none => none
          | some first => ebvAux m OV2.pos first first (m.edges.length + 1)) := rfl
  constructor
  · intro hnone
    rw [hred, hvi]
    simp only [Option.some_bind]
    rw [hov]
    simp only [Option.some_bind]
    rw [hnone]
  · intro first es hfirst hring
    rw [hred, hvi]
    simp only [Option.some_bind]
    rw [hov]
    simp only [Option.some_bind]
    rw [hfirst]
    exact ebvAux_eq_scanHeads m OV.pos first (m.edges.length + 1) first es hring

/-- Witness for C9: the isolated vertex of the augmented triangle mesh
makes the query fail, and vertex zero of the triangle mesh has a closed
two-edge ring on which the first match is returned. -/
theorem getEdgeBetweenVertex_spec_witness :
    getEdgeBetweenVertex isoQ 3 (some 0) = none ∧
      getEdgeBetweenVertex triQ 0 (some 1) = scanHeads triQ (1, 0, 0) [0, 5] :=
  ⟨(getEdgeBetweenVertex_spec isoQ 3 0
      { pos := (5, 5, 5), color := (2, 2, 2), id := 3, h := none }
      { pos := (0, 0, 0), color := (1, 1, 1), id := 0, h := some 0 }
      (by decide) (by decide)).1 rfl,
   (getEdgeBetweenVertex_spec triQ 0 1
      { pos := (0, 0, 0), color := (1, 1, 1), id := 0, h := some 0 }
      { pos := (1, 0, 0), color := (1, 1, 1), id := 1, h := some 1 }
      (by decide) (by decide)).2 0 [0, 5] rfl (by decide)⟩

end ClaimEdgeBetween

section ClaimDegenerate

attribute [local semireducible] Rat.mul Rat.add Rat.sub Rat.inv

/-- C5: the numeric degenerate cases do not fail explicitly.  On the
triangle mesh with an isolated vertex (a constructed mesh), the vertex
with zero attached faces makes Vertex.getNormal silently return a value
produced through the division by the zero face count (non-finite under
JS numerics, the zero-division artifact of the field here), and the
Laplacian pass, whose weight sum for that vertex is the empty sum zero,
silently commits positions for every vertex instead of reporting an
error. -/
theorem degenerate_cases_silent :
    loadMesh isoVerts [[0, 1, 2]] = some isoQ ∧
    getAttachedFaces isoQ 3 = some [] ∧
    vertexGetNormal ops0 isoQ 3 = some ((0 : ℚ), 0, 0) ∧
    getVertexNeighbors isoQ 3 = some [] ∧
    lapNewPos ops0 isoQ true 3 = some ((0 : ℚ), 0, 0) ∧
    (laplacianSmoothSharpen ops0 isoQ true).map (fun m2 => m2.vertices.map HVertex.pos)
      = some [((1 : ℚ)/2, 1/2, 0), (0, 1/2, 0), (1/2, 0, 0), (0, 0, 0)] := by
  refine ⟨by decide, by decide, by decide, by decide, by decide, by decide⟩

end ClaimDegenerate

section ClaimInflate

attribute [local semireducible] Rat.mul Rat.add Rat.sub Rat.inv

/-- C6 counterexample: on the constructed triangle mesh with factor one,
the pre-call unit normal of vertex one is the z axis and its pre-call
position is the x unit, so the claimed new position would be (1, 0, 1),
but inflateDeflate moves it to (2, 1, 1), because its normal is computed
after vertex zero has already moved. -/
theorem inflate_counterexample :
    loadMesh triVerts triFaces = some triQ ∧
    vertexGetNormal ops0 triQ 1 = some ((0 : ℚ), 0, 1) ∧
    (triQ.vertices[1]?).map HVertex.pos = some ((1 : ℚ), 0, 0) ∧
    ((inflateDeflate ops0 triQ 1).bind fun M => (M.vertices[1]?).map HVertex.pos)
      = some ((2 : ℚ), 1, 1) ∧
    some ((2 : ℚ), 1, 1) ≠ some (vadd ((1 : ℚ), 0, 0) (vsmul 1 ((0 : ℚ), 0, 1))) := by
  refine ⟨by decide, by decide, by decide, by decide, by decide⟩

variable {α : Type} [LinearOrderedField α]

theorem inflateUpTo_succ (ops : NumOps α) (m : Mesh α) (f : α) (k : Nat) :
    inflateUpTo ops m f (k + 1)
      = (inflateUpTo ops m f k).bind (fun mk => inflateStep ops f mk k) := by
  unfold inflateUpTo
  rw [List.range_succ, List.foldlM_append]
  cases hk : (List.range k).foldlM (inflateStep ops f) m with
  | none => rfl
  | some mk =>
    simp only [Option.bind_eq_bind, Option.some_bind, List.foldlM_cons, List.foldlM_nil]
    cases inflateStep ops f mk k <;> rfl

theorem inflateStep_frame (ops : NumOps α) (f : α) (m m2 : Mesh α) (i : Nat)
    (h : inflateStep ops f m i = some m2) :
    m2.edges = m.edges ∧ m2.faces = m.faces ∧
    m2.vertices.length = m.vertices.length ∧
    (∀ j, j ≠ i → m2.vertices[j]? = m.vertices[j]?) ∧
    (∃ V nrm, m.vertices[i]? = some V ∧ vertexGetNormal ops m i = some nrm ∧
       m2.vertices[i]? = some { V with pos := vadd V.pos (vsmul f nrm) }) := by
  unfold inflateStep at h
  cases hV : m.vertices[i]? with
  | none => rw [hV] at h; simp at h
  | some V =>
    rw [hV] at h
    simp only [Option.bind_eq_bind, Option.some_bind] at h
    cases hn : vertexGetNormal ops m i with
    | none => rw [hn] at h; simp at h
    | some nrm =>
      rw [hn] at h
      simp only [Option.bind_eq_bind, Option.some_bind, Option.pure_def,
        Option.some.injEq] at h
      subst h
      have hilt : i < m.vertices.length := (List.getElem?_eq_some.mp hV).1
      refine ⟨rfl, rfl, by simp, ?_, V, nrm, rfl, rfl, ?_⟩
      · intro j hj
        simp [List.getElem?_set_ne (fun hc => hj hc.symm)]
      · simp [List.getElem?_set_self hilt]

theorem inflateUpTo_untouched (ops : NumOps α) (m : Mesh α) (f : α) :
    ∀ (k : Nat) (mk : Mesh α), inflateUpTo ops m f k = some mk →
      ∀ j, k ≤ j → mk.vertices[j]? = m.vertices[j]? := by
  intro k
  induction k with
  | zero =>
    intro mk h j hj
    have : m = mk := by simpa [inflateUpTo] using h
    rw [← this]
  | succ k ih =>
    intro mk h j hj
    rw [inflateUpTo_succ] at h
    cases hk : inflateUpTo ops m f k with
    | none => rw [hk] at h; simp at h
    | some mk2 =>
      rw [hk] at h
      simp only [Option.some_bind] at h
      have hfr := inflateStep_frame ops f mk2 mk k h
      have hne : j ≠ k := by omega
      rw [hfr.2.2.2.1 j hne, ih mk2 hk j (by omega)]

theorem inflateUpTo_result (ops : NumOps α) (m : Mesh α) (f : α) :
    ∀ (k : Nat) (mk : Mesh α), inflateUpTo ops m f k = some mk →
      ∀ i, i < k → ∃ mi V nrm,
        inflateUpTo ops m f i = some mi ∧
        mi.vertices[i]? = some V ∧ m.vertices[i]? = some V ∧
        vertexGetNormal ops mi i = some nrm ∧
        (mk.vertices[i]?).map HVertex.pos = some (vadd V.pos (vsmul f nrm)) := by
  intro k
  induction k with
  | zero => intro mk h i hi; omega
  | succ k ih =>
    intro mk h i hi
    rw [inflateUpTo_succ] at h
    cases hk : inflateUpTo ops m f k with
    | none => rw [hk] at h; simp at h
    | some mk2 =>
      rw [hk] at h
      simp only [Option.some_bind] at h
      have hfr := inflateStep_frame ops f mk2 mk k h
      by_cases hik : i = k
      · subst hik
        rcases hfr.2.2.2.2 with ⟨V, nrm, hV, hn, hset⟩
        refine ⟨mk2, V, nrm, hk, hV, ?_, hn, ?_⟩
        · rw [← inflateUpTo_untouched ops m f i mk2 hk i (le_refl i)]
          exact hV
        · rw [hset]
          rfl
      · have hi2 : i < k := by omega
        rcases ih mk2 hk i hi2 with ⟨mi, V, nrm, h1, h2, h3, h4, h5⟩
        refine ⟨mi, V, nrm, h1, h2, h3, h4, ?_⟩
        rw [hfr.2.2.2.1 i hik]
        exact h5

/-- C6 as amended: inflateDeflate is a sequential loop; after it
succeeds, every vertex position equals its pre-call position plus the
factor times the unit normal computed from the partially updated mesh in
which the earlier vertices have already moved (the pre-call position is
still in place at that iteration, but the normal is not the pre-call
normal). -/
theorem inflateDeflate_sequential (ops : NumOps α) (m : Mesh α) (f : α)
    (m2 : Mesh α) (hm : inflateDeflate ops m f = some m2) :
    ∀ i, i < m.vertices.length → ∃ mi V nrm,
      inflateUpTo ops m f i = some mi ∧
      mi.vertices[i]? = some V ∧ m.vertices[i]? = some V ∧
      vertexGetNormal ops mi i = some nrm ∧
      (m2.vertices[i]?).map HVertex.pos = some (vadd V.pos (vsmul f nrm)) := by
  intro i hi
  exact inflateUpTo_result ops m f m.vertices.length m2 hm i hi

/-- Witness for the amended C6 on the triangle mesh with factor one, at
vertex one, whose normal is computed after vertex zero has moved. -/
theorem inflateDeflate_sequential_witness :
    ∃ mi V nrm,
      inflateUpTo ops0 triQ 1 1 = some mi ∧
      mi.vertices[1]? = some V ∧ triQ.vertices[1]? = some V ∧
      vertexGetNormal ops0 mi 1 = some nrm ∧
      (triInflQ.vertices[1]?).map HVertex.pos = some (vadd V.pos (vsmul 1 nrm)) :=
  inflateDeflate_sequential ops0 triQ 1 triInflQ (by decide) 1 (by decide)

end ClaimInflate

section ClaimLaplacianSnapshot

attribute [local semireducible] Rat.mul Rat.add Rat.sub Rat.inv

variable {α : Type}

theorem slotFind_map {g : Nat → Vec3 α} :
    ∀ {l : List Nat} {j : Nat}, j ∈ l →
      slotFind j (l.map (fun i => (i, g i))) = some (g j) := by
  intro l
  induction l with
  | nil => intro j hj; simp at hj
  | cons k rest ih =>
    intro j hj
    unfold slotFind
    by_cases hkj : k = j
    · subst hkj; simp
    · simp only [List.map_cons]
      rw [if_neg hkj]
      rcases List.mem_cons.mp hj with h | h
      · exact absurd h.symm hkj
      · exact ih h

variable [LinearOrderedField α]

/-- C1: laplacianSmoothSharpen stages every new position from the
unmodified pre-call mesh (pass 1) and only afterwards commits them all
(pass 2): every committed position is the pass-1 value computed from the
pre-call mesh, and the committed result is identical under any
permutation of the vertex processing order. -/
theorem laplacian_snapshot_order_independent (ops : NumOps α) (m : Mesh α)
    (smooth : Bool) :
    (∀ m2, laplacianSmoothSharpen ops m smooth = some m2 →
       ∀ i, i < m.vertices.length → ∃ p, lapNewPos ops m smooth i = some p ∧
         (m2.vertices[i]?).map HVertex.pos = some p) ∧
    (∀ order, order.Perm (List.range m.vertices.length) →
       laplacianPermuted ops m smooth order = laplacianSmoothSharpen ops m smooth) := by
  constructor
  · intro m2 h2 i hi
    unfold laplacianSmoothSharpen at h2
    cases hps : (List.range m.vertices.length).mapM (lapNewPos ops m smooth) with
    | none => rw [hps] at h2; simp at h2
    | some ps =>
      rw [hps] at h2
      simp only [Option.bind_eq_bind, Option.some_bind, Option.pure_def,
        Option.some.injEq] at h2
      subst h2
      have hri : (List.range m.vertices.length)[i]? = some i := List.getElem?_range hi
      rcases optMapM_some_getElem hps hri with ⟨p, hp, hpsi⟩
      refine ⟨p, hp, ?_⟩
      have hvi : m.vertices[i]? = some (m.vertices.get ⟨i, hi⟩) := by
        simp [List.getElem?_eq_getElem hi]
      have hz : (List.zipWith (fun (V : HVertex α) p => { V with pos := p })
          m.vertices ps)[i]? = some { m.vertices.get ⟨i, hi⟩ with pos := p } := by
        rw [List.getElem?_zipWith_eq_some]
        exact ⟨m.vertices.get ⟨i, hi⟩, p, hvi, hpsi, rfl⟩
      unfold commitPositions
      simp only [hz]
      rfl
  · intro order hperm
    by_cases hex : ∃ j ∈ List.range m.vertices.length, lapNewPos ops m smooth j = none
    · rcases hex with ⟨j, hjmem, hjnone⟩
      have h1 : (List.range m.vertices.length).mapM (lapNewPos ops m smooth) = none :=
        optMapM_none hjmem hjnone
      have hjord : j ∈ order := hperm.mem_iff.mpr hjmem
      have h2 : order.mapM (fun i => do
          let p ← lapNewPos ops m smooth i
          pure (i, p)) = none := by
        apply optMapM_none hjord
        rw [hjnone]; rfl
      unfold laplacianPermuted laplacianSmoothSharpen
      rw [h1, h2]
      rfl
    · have hall : ∀ j ∈ List.range m.vertices.length,
          lapNewPos ops m smooth j = some ((lapNewPos ops m smooth j).getD vzero) := by
        intro j hj
        cases hx : lapNewPos ops m smooth j with
        | none => exact absurd ⟨j, hj, hx⟩ hex
        | some p => simp [hx]
      have hall2 : ∀ j ∈ order,
          lapNewPos ops m smooth j = some ((lapNewPos ops m smooth j).getD vzero) := by
        intro j hj
        exact hall j (hperm.mem_iff.mp hj)
      have hpairs : order.mapM (fun i => do
          let p ← lapNewPos ops m smooth i
          pure (i, p)) = some (order.map
            (fun i => (i, (lapNewPos ops m smooth i).getD vzero))) := by
        apply optMapM_map
        intro j hj
        rw [hall2 j hj]; rfl
      have hps : (List.range m.vertices.length).mapM (lapNewPos ops m smooth)
          = some ((List.range m.vertices.length).map
              (fun i => (lapNewPos ops m smooth i).getD vzero)) :=
        optMapM_map hall
      have hps2 : (List.range m.vertices.length).mapM (fun i =>
            slotFind i (order.map (fun i2 => (i2, (lapNewPos ops m smooth i2).getD vzero))))
          = some ((List.range m.vertices.length).map
              (fun i => (lapNewPos ops m smooth i).getD vzero)) := by
        apply optMapM_map
        intro j hj
        exact slotFind_map (hperm.mem_iff.mpr hj)
      unfold laplacianPermuted laplacianSmoothSharpen
      rw [hpairs]
      simp only [Option.bind_eq_bind, Option.some_bind]
      rw [hps2, hps]

/-- Witness for C1 on the triangle mesh: the committed position of vertex
zero is its staged pass-1 value, and processing in the order two, zero,
one commits the same mesh. -/
theorem laplacian_snapshot_witness :
    (∃ p, lapNewPos ops0 triQ true 0 = some p ∧
       (triLapQ.vertices[0]?).map HVertex.pos = some p) ∧
    laplacianPermuted ops0 triQ true [2, 0, 1] = laplacianSmoothSharpen ops0 triQ true :=
  ⟨(laplacian_snapshot_order_independent ops0 triQ true).1 triLapQ (by decide) 0 (by decide),
   (laplacian_snapshot_order_independent ops0 triQ true).2 [2, 0, 1] (by decide)⟩

end ClaimLaplacianSnapshot

section ClaimFrame

attribute [local semireducible] Rat.mul Rat.add Rat.sub Rat.inv

variable {α : Type}

theorem topoEq_comp {m1 m2 m3 : Mesh α} (h12 : topoEq m1 m2) (h23 : topoEq m2 m3) :
    topoEq m1 m3 := by
  refine ⟨h23.1.trans h12.1, h23.2.1.trans h12.2.1, h23.2.2.1.trans h12.2.2.1, ?_⟩
  intro i
  rw [h23.2.2.2 i, h12.2.2.2 i]

variable [LinearOrderedField α]

theorem topoEq_of_step {ops : NumOps α} {f : α} {mm mm2 : Mesh α} {k : Nat}
    (h : inflateStep ops f mm k = some mm2) : topoEq mm mm2 := by
  have hfr := inflateStep_frame ops f mm mm2 k h
  refine ⟨hfr.1, hfr.2.1, hfr.2.2.1, ?_⟩
  intro i
  by_cases hik : i = k
  · subst hik
    rcases hfr.2.2.2.2 with ⟨V, nrm, hV, hn, hset⟩
    rw [hset, hV]
    rfl
  · rw [hfr.2.2.2.1 i hik]

theorem inflateUpTo_topoEq (ops : NumOps α) (m : Mesh α) (f : α) :
    ∀ (k : Nat) (mk : Mesh α), inflateUpTo ops m f k = some mk → topoEq m mk := by
  intro k
  induction k with
  | zero =>
    intro mk h
    have hmk : m = mk := by simpa [inflateUpTo] using h
    subst hmk
    exact ⟨rfl, rfl, rfl, fun i => rfl⟩
  | succ k ih =>
    intro mk h
    rw [inflateUpTo_succ] at h
    cases hk : inflateUpTo ops m f k with
    | none => rw [hk] at h; simp at h
    | some mk2 =>
      rw [hk] at h
      simp only [Option.some_bind] at h
      exact topoEq_comp (ih mk2 hk) (topoEq_of_step h)

/-- C8: after construction the geometric operators mutate only vertex
positions: whenever inflateDeflate or laplacianSmoothSharpen returns a
mesh, its half-edge and face collections are unchanged, the vertex
collection has the same length, and every vertex keeps its id, color and
outgoing-edge reference. -/
theorem operators_mutate_positions_only (ops : NumOps α) (m : Mesh α) :
    (∀ f m2, inflateDeflate ops m f = some m2 → topoEq m m2) ∧
    (∀ s m2, laplacianSmoothSharpen ops m s = some m2 → topoEq m m2) := by
  constructor
  · intro f m2 h
    exact inflateUpTo_topoEq ops m f m.vertices.length m2 h
  · intro s m2 h
    unfold laplacianSmoothSharpen at h
    cases hps : (List.range m.vertices.length).mapM (lapNewPos ops m s) with
    | none => rw [hps] at h; simp at h
    | some ps =>
      rw [hps] at h
      simp only [Option.bind_eq_bind, Option.some_bind, Option.pure_def,
        Option.some.injEq] at h
      subst h
      have hlen : ps.length = m.vertices.length := by
        have hx := optMapM_some_length hps
        simpa using hx
      refine ⟨rfl, rfl, ?_, ?_⟩
      · unfold commitPositions
        simp [List.length_zipWith, hlen]
      · intro i
        by_cases hi : i < m.vertices.length
        · have hvi : m.vertices[i]? = some (m.vertices.get ⟨i, hi⟩) := by
            simp [List.getElem?_eq_getElem hi]
          have hpi : ps[i]? = some (ps.get ⟨i, by omega⟩) := by
            simp [List.getElem?_eq_getElem]
          have hz : (List.zipWith (fun (V : HVertex α) p => { V with pos := p })
              m.vertices ps)[i]? = some { m.vertices.get ⟨i, hi⟩ with
                pos := ps.get ⟨i, by omega⟩ } := by
            rw [List.getElem?_zipWith_eq_some]
            exact ⟨m.vertices.get ⟨i, hi⟩, ps.get ⟨i, by omega⟩, hvi, hpi, rfl⟩
          unfold commitPositions
          simp only [hz, hvi]
          rfl
        · have h1 : m.vertices[i]? = none := by
            simp [List.getElem?_eq_none (by omega : m.vertices.length ≤ i)]
          have h2 : (List.zipWith (fun (V : HVertex α) p => { V with pos := p })
              m.vertices ps)[i]? = none := by
            apply List.getElem?_eq_none
            simp only [List.length_zipWith, hlen]
            omega
          unfold commitPositions
          simp only [h1, h2]

/-- Witness for C8: both operators on the triangle mesh preserve
everything except vertex positions. -/
theorem operators_mutate_positions_only_witness :
    topoEq triQ triInflQ ∧ topoEq triQ triLapQ :=
  ⟨(operators_mutate_positions_only ops0 triQ).1 1 triInflQ (by decide),
   (operators_mutate_positions_only ops0 triQ).2 true triLapQ (by decide)⟩

end ClaimFrame

/-! Lemmas characterising the construction: list update helpers, the
table operations, and the shape of the state after each load phase. -/

section ConstructionListLemmas

variable {β : Type}

theorem set_append_right (E : List β) :
    ∀ (l : List β) (j : Nat) (x : β), (E ++ l).set (E.length + j) x = E ++ l.set j x := by
  induction E with
  | nil => intro l j x; simp
  | cons e rest ih =>
    intro l j x
    simp only [List.cons_append, List.length_cons]
    have : rest.length + 1 + j = (rest.length + j) + 1 := by omega
    rw [this, List.set_cons_succ, ih]

theorem listModify_append_right (E : List β) (l : List β) (j : Nat) (f : β → β) :
    Mesh.listModify (E ++ l) (E.length + j) f = E ++ Mesh.listModify l j f := by
  unfold Mesh.listModify
  rw [List.getElem?_append_right (by omega : E.length ≤ E.length + j)]
  have hj : E.length + j - E.length = j := by omega
  rw [hj]
  cases h : l[j]? with
  | none => rfl
  | some x =>
    show (E ++ l).set (E.length + j) (f x) = E ++ l.set j (f x)
    exact set_append_right E l j (f x)

theorem listModify_append_left (E : List β) (l : List β) (j : Nat) (f : β → β)
    (hj : j < E.length) :
    Mesh.listModify (E ++ l) j f = Mesh.listModify E j f ++ l := by
  unfold Mesh.listModify
  rw [List.getElem?_append_left hj]
  cases h : E[j]? with
  | none => rfl
  | some x =>
    show (E ++ l).set j (f x) = E.set j (f x) ++ l
    exact List.set_append_left _ _ hj

theorem listModify_length (l : List β) (j : Nat) (f : β → β) :
    (Mesh.listModify l j f).length = l.length := by
  unfold Mesh.listModify
  cases h : l[j]? with
  | none => rfl
  | some x => simp

theorem listModify_getElem?_ne (l : List β) (j : Nat) (f : β → β) (i : Nat)
    (hij : i ≠ j) : (Mesh.listModify l j f)[i]? = l[i]? := by
  unfold Mesh.listModify
  cases h : l[j]? with
  | none => rfl
  | some x => rw [List.getElem?_set_ne (fun hc => hij hc.symm)]

theorem listModify_getElem?_eq (l : List β) (j : Nat) (f : β → β) (x : β)
    (h : l[j]? = some x) : (Mesh.listModify l j f)[j]? = some (f x) := by
  unfold Mesh.listModify
  rw [h]
  exact List.getElem?_set_self (List.getElem?_eq_some.mp h).1

theorem jsSet_fresh {k : Nat × Nat} {v : Nat} :
    ∀ {l : List ((Nat × Nat) × Nat)}, k ∉ l.map Prod.fst → jsSet l k v = l ++ [(k, v)] := by
  intro l
  induction l with
  | nil => intro h; rfl
  | cons p rest ih =>
    intro h
    unfold jsSet
    have hk : p.1 ≠ k := by
      intro hc
      exact h (by simp [hc.symm])
    rw [if_neg hk]
    have hrest : k ∉ rest.map Prod.fst := by
      intro hc
      exact h (by simp [hc])
    rw [ih hrest]
    rfl

theorem assocFind_not_mem {k : Nat × Nat} :
    ∀ {l : List ((Nat × Nat) × Nat)}, k ∉ l.map Prod.fst → assocFind k l = none := by
  intro l
  induction l with
  | nil => intro h; rfl
  | cons p rest ih =>
    intro h
    unfold assocFind
    have hk : p.1 ≠ k := fun hc => h (by simp [hc.symm])
    rw [if_neg hk]
    exact ih (fun hc => h (by simp [hc]))

theorem assocFind_append {k : Nat × Nat} :
    ∀ {l1 l2 : List ((Nat × Nat) × Nat)}, k ∉ l1.map Prod.fst →
      assocFind k (l1 ++ l2) = assocFind k l2 := by
  intro l1
  induction l1 with
  | nil => intro l2 h; rfl
  | cons p rest ih =>
    intro l2 h
    have hk : p.1 ≠ k := fun hc => h (by simp [hc.symm])
    simp only [List.cons_append]
    have hcons : assocFind k (p :: (rest ++ l2))
        = if p.1 = k then some p.2 else assocFind k (rest ++ l2) := rfl
    rw [hcons, if_neg hk]
    exact ih (fun hc => h (by simp [hc]))

theorem bFind_mem_values {k : Nat} :
    ∀ {l : List (Nat × Nat)} {v : Nat}, bFind k l = some v → v ∈ l.map Prod.snd := by
  intro l
  induction l with
  | nil => intro v h; simp [bFind] at h
  | cons p rest ih =>
    intro v h
    unfold bFind at h
    by_cases hk : p.1 = k
    · rw [if_pos hk] at h
      simp only [Option.some.injEq] at h
      simp [← h]
    · rw [if_neg hk] at h
      simp [ih h]

theorem bInsert_values {k v : Nat} :
    ∀ {l : List (Nat × Nat)} {kv : Nat × Nat}, kv ∈ bInsert k v l →
      kv ∈ l ∨ kv = (k, v) := by
  intro l
  induction l with
  | nil => intro kv h; simp [bInsert] at h; simp [h]
  | cons p rest ih =>
    intro kv h
    unfold bInsert at h
    by_cases h1 : k = p.1
    · rw [if_pos h1] at h
      rcases List.mem_cons.mp h with h2 | h2
      · right; exact h2
      · left; simp [h2]
    · rw [if_neg h1] at h
      by_cases h2 : k < p.1
      · rw [if_pos h2] at h
        rcases List.mem_cons.mp h with h3 | h3
        · right; exact h3
        · left; exact h3
      · rw [if_neg h2] at h
        rcases List.mem_cons.mp h with h3 | h3
        · left; simp [h3]
        · rcases ih h3 with h4 | h4
          · left; simp [h4]
          · right; exact h4

end ConstructionListLemmas

section ConstructionShapeLemmas

theorem faceKeys_length (ids : List Nat) : (faceKeys ids).length = ids.length := by
  simp [faceKeys]

theorem faceKeys_map_fst (ids : List Nat) : (faceKeys ids).map Prod.fst = ids :=
  List.map_fst_zip _ _ (by simp)

theorem faceKeys_getElem? (ids : List Nat) (t : Nat) (ht : t < ids.length) :
    (faceKeys ids)[t]? = some (ids.getD t 0, ids.getD ((t + 1) % ids.length) 0) := by
  unfold faceKeys
  rw [List.getElem?_zip_eq_some]
  constructor
  · rw [List.getElem?_eq_getElem ht, List.getD_eq_getElem ids 0 ht]
  · have ht2 : t < (ids.rotate 1).length := by simp [ht]
    rw [List.getElem?_eq_getElem ht2]
    have hmod : (t + 1) % ids.length < ids.length := Nat.mod_lt _ (by omega)
    rw [List.getElem_rotate, List.getD_eq_getElem ids 0 hmod]

theorem tableOfKeys_map_fst : ∀ (K : List (Nat × Nat)) (b : Nat),
    (tableOfKeys b K).map Prod.fst = K := by
  intro K
  induction K with
  | nil => intro b; rfl
  | cons k rest ih => intro b; simp [tableOfKeys, ih]

theorem tableOfKeys_length : ∀ (K : List (Nat × Nat)) (b : Nat),
    (tableOfKeys b K).length = K.length := by
  intro K
  induction K with
  | nil => intro b; rfl
  | cons k rest ih => intro b; simp [tableOfKeys, ih]

theorem set_map_range {β : Type} (f : Nat → β) (n j : Nat) (x : β) (hj : j < n) :
    ((List.range n).map f).set j x
      = (List.range n).map (fun t => if t = j then x else f t) := by
  apply List.ext_getElem?
  intro i
  by_cases hi : i < n
  · by_cases hij : i = j
    · subst hij
      rw [List.getElem?_set_self (by simp [hi])]
      rw [List.getElem?_map, List.getElem?_range hi]
      simp
    · rw [List.getElem?_set_ne (fun hc => hij hc.symm)]
      rw [List.getElem?_map, List.getElem?_map, List.getElem?_range hi]
      simp [hij]
  · have h1 : ((List.range n).map f).length ≤ i := by simp; omega
    have h2 : ((List.range n).map fun t => if t = j then x else f t).length ≤ i := by
      simp; omega
    rw [List.getElem?_eq_none (by simpa using h1),
        List.getElem?_eq_none (by simpa using h2)]

theorem partialBlock_zero (base fi : Nat) (ids : List Nat) :
    (faceKeys ids).map (fun kv => edge1 fi kv.2)
      = partialBlock base fi ids.length 0 ids := by
  apply List.ext_getElem?
  intro t
  by_cases ht : t < ids.length
  · rw [List.getElem?_map, faceKeys_getElem? ids t ht]
    unfold partialBlock
    rw [List.getElem?_map, List.getElem?_range ht]
    simp only [Option.map_some']
    unfold edge1
    rw [if_neg (show ¬ t < 0 by omega),
        if_neg (show ¬((1 ≤ t ∧ t ≤ 0) ∨ (t = 0 ∧ 0 = ids.length)) by
          rintro (⟨h1, h2⟩ | ⟨h1, h2⟩) <;> omega)]
  · have h1 : ((faceKeys ids).map (fun kv => edge1 fi kv.2)).length ≤ t := by
      simp [faceKeys_length]; omega
    have h2 : (partialBlock base fi ids.length 0 ids).length ≤ t := by
      unfold partialBlock
      simp; omega
    rw [List.getElem?_eq_none h1, List.getElem?_eq_none h2]

theorem partialBlock_full (base fi : Nat) (ids : List Nat) :
    partialBlock base fi ids.length ids.length ids = linkedBlock base fi ids := by
  unfold partialBlock linkedBlock
  apply List.map_congr_left
  intro t ht
  have htn : t < ids.length := List.mem_range.mp ht
  have hnext : t < ids.length := htn
  have hprev : (1 ≤ t ∧ t ≤ ids.length) ∨ (t = 0 ∧ ids.length = ids.length) := by
    by_cases h0 : t = 0
    · right; exact ⟨h0, rfl⟩
    · left; omega
  rw [if_pos hnext, if_pos hprev]

end ConstructionShapeLemmas

section Step3Proof

variable {α : Type}

theorem loop1_spec (fi : Nat) :
    ∀ (K : List (Nat × Nat)) (m : Mesh α) (s : List ((Nat × Nat) × Nat)),
      (∀ kv ∈ K, kv.1 < m.vertices.length ∧ kv.2 < m.vertices.length) →
      fi < m.faces.length →
      ((s.map Prod.fst ++ K).Nodup) →
      ((K.map Prod.fst).Nodup) →
      ∃ m2, K.foldlM (addFaceEdge fi) (m, s)
          = some (m2, s ++ tableOfKeys m.edges.length K) ∧
        m2.vertices.length = m.vertices.length ∧
        m2.edges = m.edges ++ K.map (fun kv => edge1 fi kv.2) ∧
        m2.faces = (if K.length = 0 then m.faces
                    else m.faces.set fi { h := some (m.edges.length + K.length - 1) }) ∧
        (∀ v, v ∉ K.map Prod.fst → m2.vertices[v]? = m.vertices[v]?) ∧
        (∀ t (ht : t < K.length), ∃ V,
            m2.vertices[(K.get ⟨t, ht⟩).1]? = some V ∧
            V.h = some (m.edges.length + t)) := by
  intro K
  induction K with
  | nil =>
    intro m s ha hb hc hd
    refine ⟨m, by simp [tableOfKeys], rfl, by simp, by simp, fun v hv => rfl, ?_⟩
    intro t ht
    simp at ht
  | cons kv K2 ih =>
    intro m s ha hb hc hd
    obtain ⟨hval1, hval2⟩ := ha kv (List.mem_cons_self kv K2)
    have hVm : m.vertices[kv.1]? = some (m.vertices.get ⟨kv.1, hval1⟩) := by
      rw [List.getElem?_eq_getElem hval1]
      rfl
    have hfm : m.faces[fi]? = some (m.faces.get ⟨fi, hb⟩) := by
      rw [List.getElem?_eq_getElem hb]
      rfl
    have hfresh : kv ∉ s.map Prod.fst := by
      have hsplit := List.nodup_append.mp hc
      intro hmem
      exact hsplit.2.2 hmem (List.mem_cons_self kv K2)
    have hstep : addFaceEdge fi (m, s) kv = some
        (⟨m.vertices.set kv.1 { pos := (m.vertices.get ⟨kv.1, hval1⟩).pos, color := (m.vertices.get ⟨kv.1, hval1⟩).color, id := (m.vertices.get ⟨kv.1, hval1⟩).id, h := some m.edges.length },
          m.edges ++ [edge1 fi kv.2],
          m.faces.set fi { h := some m.edges.length }⟩,
         s ++ [(kv, m.edges.length)]) := by
      unfold addFaceEdge addHalfEdgeM
      rw [hVm]
      simp only [Option.pure_def, Option.bind_eq_bind, Option.some_bind]
      rw [jsSet_fresh hfresh, if_pos hval2]
      unfold Mesh.listModify
      simp only [hfm]
      rfl
    have ha2 : ∀ kv2 ∈ K2, kv2.1 <
        (m.vertices.set kv.1 { m.vertices.get ⟨kv.1, hval1⟩ with
          h := some m.edges.length }).length ∧
        kv2.2 < (m.vertices.set kv.1 { m.vertices.get ⟨kv.1, hval1⟩ with
          h := some m.edges.length }).length := by
      intro kv2 hkv2
      rw [List.length_set]
      exact ha kv2 (List.mem_cons_of_mem kv hkv2)
    have hb2 : fi < (m.faces.set fi { h := some m.edges.length }).length := by
      rw [List.length_set]
      exact hb
    have hc2 : (((s ++ [(kv, m.edges.length)]).map Prod.fst) ++ K2).Nodup := by
      rw [List.map_append]
      simp only [List.map_cons, List.map_nil]
      rw [List.append_assoc]
      simpa using hc
    have hd2 : (K2.map Prod.fst).Nodup := (by simpa using hd : (kv.1 ∉ K2.map Prod.fst) ∧ (K2.map Prod.fst).Nodup).2
    obtain ⟨m2, hfold, hlen, hedges, hfaces, hframe, hpos⟩ :=
      ih ⟨m.vertices.set kv.1 { pos := (m.vertices.get ⟨kv.1, hval1⟩).pos, color := (m.vertices.get ⟨kv.1, hval1⟩).color, id := (m.vertices.get ⟨kv.1, hval1⟩).id, h := some m.edges.length },
          m.edges ++ [edge1 fi kv.2],
          m.faces.set fi { h := some m.edges.length }⟩
        (s ++ [(kv, m.edges.length)]) ha2 hb2 hc2 hd2
    have hm1len : (m.edges ++ [edge1 fi kv.2]).length = m.edges.length + 1 := by simp
    refine ⟨m2, ?_, ?_, ?_, ?_, ?_, ?_⟩
    · rw [List.foldlM_cons, hstep]
      simp only [Option.bind_eq_bind, Option.some_bind]
      rw [hfold]
      simp only [Option.some.injEq, Prod.mk.injEq]
      refine ⟨trivial, ?_⟩
      show s ++ [(kv, m.edges.length)] ++ tableOfKeys (m.edges ++ [edge1 fi kv.2]).length K2
          = s ++ tableOfKeys m.edges.length (kv :: K2)
      rw [hm1len]
      have hcons : tableOfKeys m.edges.length (kv :: K2)
          = (kv, m.edges.length) :: tableOfKeys (m.edges.length + 1) K2 := rfl
      rw [hcons, List.append_assoc]
      rfl
    · rw [hlen]
      simp
    · rw [hedges]
      simp [List.append_assoc]
    · rw [hfaces]
      by_cases hK2 : K2.length = 0
      · rw [if_pos hK2, if_neg (by simp)]
        simp [hK2]
      · rw [if_neg hK2, if_neg (by simp)]
        rw [List.set_set, hm1len]
        have harith : m.edges.length + 1 + K2.length - 1
            = m.edges.length + (kv :: K2).length - 1 := by
          simp only [List.length_cons]
          omega
        rw [harith]
    · intro v hv
      have hv1 : v ≠ kv.1 := by
        intro hcv
        exact hv (by simp [hcv])
      have hv2 : v ∉ K2.map Prod.fst := by
        intro hcv
        exact hv (by simp [hcv])
      rw [hframe v hv2]
      simp only
      exact List.getElem?_set_ne (fun hcv => hv1 hcv.symm)
    · intro t ht
      cases t with
      | zero =>
        have hkv1 : kv.1 ∉ K2.map Prod.fst :=
          (by simpa using hd : (kv.1 ∉ K2.map Prod.fst) ∧ (K2.map Prod.fst).Nodup).1
        refine ⟨{ pos := (m.vertices.get ⟨kv.1, hval1⟩).pos, color := (m.vertices.get ⟨kv.1, hval1⟩).color, id := (m.vertices.get ⟨kv.1, hval1⟩).id, h := some m.edges.length }, ?_, by simp⟩
        show m2.vertices[kv.1]? = _
        rw [hframe kv.1 hkv1]
        simp only
        exact List.getElem?_set_self hval1
      | succ t2 =>
        have ht2 : t2 < K2.length := by simpa using ht
        obtain ⟨V, h1, h2⟩ := hpos t2 ht2
        refine ⟨V, ?_, ?_⟩
        · have hget : (kv :: K2).get ⟨t2 + 1, ht⟩ = K2.get ⟨t2, ht2⟩ := rfl
          rw [hget]
          exact h1
        · rw [h2, hm1len]
          have : m.edges.length + 1 + t2 = m.edges.length + (t2 + 1) := by omega
          rw [this]

end Step3Proof

section Loop2Proof

variable {α : Type}

theorem pb_getElem? (b fi n j : Nat) (ids : List Nat) (t : Nat) (ht : t < n) :
    (partialBlock b fi n j ids)[t]? = some
      { head := some (ids.getD ((t + 1) % n) 0),
        face := some fi,
        pair := none,
        next := if t < j then some (b + (t + 1) % n) else none,
        prev := if (1 ≤ t ∧ t ≤ j) ∨ (t = 0 ∧ j = n) then
                  some (b + (t + n - 1) % n)
                else none } := by
  unfold partialBlock
  rw [List.getElem?_map, List.getElem?_range ht]
  rfl

theorem pb_length (b fi n j : Nat) (ids : List Nat) :
    (partialBlock b fi n j ids).length = n := by
  unfold partialBlock
  simp

theorem linkStep_edges (E : List HEdge) (fi : Nat) (ids : List Nat) (j : Nat)
    (hjlt : j < ids.length) :
    Mesh.listModify
        (Mesh.listModify (E ++ partialBlock E.length fi ids.length j ids)
          (E.length + j)
          (setNextF (some (E.length + (j + 1) % ids.length))))
        (E.length + (j + 1) % ids.length)
        (setPrevF (some (E.length + j)))
      = E ++ partialBlock E.length fi ids.length (j + 1) ids := by
  set n := ids.length with hn
  set b := E.length with hb
  have ht2 : (j + 1) % n < n := Nat.mod_lt _ (by omega)
  rw [listModify_append_right, listModify_append_right]
  congr 1
  set t2 := (j + 1) % n with hT2
  set pbj := partialBlock b fi n j ids with hpbj
  have hentry : ∀ t, t < n → pbj[t]? = some
      { head := some (ids.getD ((t + 1) % n) 0),
        face := some fi,
        pair := none,
        next := if t < j then some (b + (t + 1) % n) else none,
        prev := if (1 ≤ t ∧ t ≤ j) ∨ (t = 0 ∧ j = n) then
                  some (b + (t + n - 1) % n)
                else none } := fun t ht => pb_getElem? b fi n j ids t ht
  have hentry2 : ∀ t, t < n → (partialBlock b fi n (j + 1) ids)[t]? = some
      { head := some (ids.getD ((t + 1) % n) 0),
        face := some fi,
        pair := none,
        next := if t < j + 1 then some (b + (t + 1) % n) else none,
        prev := if (1 ≤ t ∧ t ≤ j + 1) ∨ (t = 0 ∧ j + 1 = n) then
                  some (b + (t + n - 1) % n)
                else none } := fun t ht => pb_getElem? b fi n (j + 1) ids t ht
  apply List.ext_getElem?
  intro t
  by_cases htn : t < n
  · by_cases hteq2 : t = t2
    · rw [hteq2]
      by_cases hj2 : t2 = j
      · -- the two updates hit the same slot: only when n = 1, j = 0
        have hn1 : n = 1 := by
          rcases Nat.lt_or_ge (j + 1) n with h | h
          · have : t2 = j + 1 := by rw [hT2, Nat.mod_eq_of_lt h]
            omega
          · have hj1 : j + 1 = n := by omega
            have : t2 = 0 := by rw [hT2, hj1, Nat.mod_self]
            omega
        have hj0 : j = 0 := by omega
        have hin : (Mesh.listModify pbj (j : Nat)
            (setNextF (some (b + t2))))[t2]? = some (setNextF (some (b + t2))
              { head := some (ids.getD ((j + 1) % n) 0),
                face := some fi,
                pair := none,
                next := if j < j then some (b + (j + 1) % n) else none,
                prev := if (1 ≤ j ∧ j ≤ j) ∨ (j = 0 ∧ j = n) then
                          some (b + (j + n - 1) % n)
                        else none }) := by
          rw [hj2]
          exact listModify_getElem?_eq _ _ _ _ (hentry j (by omega))
        rw [listModify_getElem?_eq _ _ _ _ hin, hentry2 t2 ht2]
        unfold setNextF setPrevF
        simp only [Option.some.injEq]
        have hv0 : t2 = 0 := by omega
        rw [hv0, hj0, hn1]
        norm_num
      · -- slots distinct within block: prev slot differs from next slot
        have hin : (Mesh.listModify pbj j
            (setNextF (some (b + t2))))[t2]? = some
              { head := some (ids.getD ((t2 + 1) % n) 0),
                face := some fi,
                pair := none,
                next := if t2 < j then some (b + (t2 + 1) % n) else none,
                prev := if (1 ≤ t2 ∧ t2 ≤ j) ∨ (t2 = 0 ∧ j = n) then
                          some (b + (t2 + n - 1) % n)
                        else none } := by
          rw [listModify_getElem?_ne _ _ _ _ hj2]
          exact hentry t2 ht2
        rw [listModify_getElem?_eq _ _ _ _ hin, hentry2 t2 ht2]
        unfold setPrevF
        simp only [Option.some.injEq]
        rcases Nat.lt_or_ge (j + 1) n with hlt | hge
        · have hmod : t2 = j + 1 := by rw [hT2, Nat.mod_eq_of_lt hlt]
          have e1 : ¬ (t2 < j) := by omega
          have e3 : ¬ (t2 < j + 1) := by omega
          have e4 : (1 ≤ t2 ∧ t2 ≤ j + 1) ∨ (t2 = 0 ∧ j + 1 = n) := by
            left; omega
          have harith : (t2 + n - 1) % n = j := by
            have h5 : t2 + n - 1 = j + n := by omega
            rw [h5, Nat.add_mod_right, Nat.mod_eq_of_lt hjlt]
          rw [if_neg e1, if_neg e3, if_pos e4, harith]
        · have hj1 : j + 1 = n := by omega
          have hmod : t2 = 0 := by rw [hT2, hj1, Nat.mod_self]
          have hjpos : 1 ≤ j := by
            rcases Nat.eq_zero_or_pos j with h0 | h0
            · exfalso; apply hj2; omega
            · omega
          have e1 : t2 < j := by omega
          have e3 : t2 < j + 1 := by omega
          have e4 : (1 ≤ t2 ∧ t2 ≤ j + 1) ∨ (t2 = 0 ∧ j + 1 = n) := by
            right; omega
          have harith : (t2 + n - 1) % n = j := by
            have h5 : t2 + n - 1 = j := by omega
            rw [h5, Nat.mod_eq_of_lt hjlt]
          rw [if_pos e1, if_pos e3, if_pos e4, harith]
    · -- t is not the prev-updated slot
      rw [listModify_getElem?_ne _ _ _ _ hteq2]
      by_cases htj : t = j
      · have hj2n : ¬ j = t2 := by rw [← htj]; exact hteq2
        rw [htj]
        rw [listModify_getElem?_eq _ _ _ _ (hentry j hjlt), hentry2 j hjlt]
        unfold setNextF
        simp only [Option.some.injEq]
        have e2 : j < j + 1 := Nat.lt_succ_self j
        have hcond : ((1 ≤ j ∧ j ≤ j) ∨ (j = 0 ∧ j = n))
            = ((1 ≤ j ∧ j ≤ j + 1) ∨ (j = 0 ∧ j + 1 = n)) := by
          apply propext
          constructor
          · rintro (⟨h1, h2⟩ | ⟨h1, h2⟩)
            · left; omega
            · exfalso; omega
          · rintro (⟨h1, h2⟩ | ⟨h1, h2⟩)
            · left; omega
            · exfalso
              apply hj2n
              rw [hT2, h2, Nat.mod_self, h1]
        simp only [hcond]
        rw [if_pos e2]
      · -- untouched slot
        rw [listModify_getElem?_ne _ _ _ _ htj]
        rw [hentry t htn, hentry2 t htn]
        simp only [Option.some.injEq]
        have e1 : (t < j) = (t < j + 1) := by
          by_cases h : t < j
          · simp only [h, true_iff, eq_iff_iff, iff_true]
            omega
          · simp only [h, eq_iff_iff, false_iff, iff_false]
            intro hc
            have : t = j := by omega
            exact htj this
        have e2 : ((1 ≤ t ∧ t ≤ j) ∨ (t = 0 ∧ j = n))
            = ((1 ≤ t ∧ t ≤ j + 1) ∨ (t = 0 ∧ j + 1 = n)) := by
          apply propext
          constructor
          · rintro (⟨h1, h2⟩ | ⟨h1, h2⟩)
            · left; omega
            · exfalso; omega
          · rintro (⟨h1, h2⟩ | ⟨h1, h2⟩)
            · left
              refine ⟨h1, ?_⟩
              rcases Nat.lt_or_ge (j + 1) n with hlt | hge
              · have : t ≠ j + 1 := by
                  intro hc
                  exact hteq2 (by rw [hT2, Nat.mod_eq_of_lt hlt, hc])
                omega
              · omega
            · exfalso
              apply hteq2
              rw [hT2, h2, Nat.mod_self, h1]
        simp only [e1, e2]
  · have hlen1 : n ≤ t := by omega
    rw [List.getElem?_eq_none, List.getElem?_eq_none]
    · rw [pb_length]; exact hlen1
    · rw [listModify_length, listModify_length, pb_length]; exact hlen1

/-- The step 3 linking loop from position j on: starting from the mesh
whose block has next and prev installed up to j, it installs the rest and
touches nothing else. -/
theorem loop2_aux (fi : Nat) (ids : List Nat) (E : List HEdge) :
    ∀ (d j : Nat), j + d = ids.length →
    ∀ (m : Mesh α),
      m.edges = E ++ partialBlock E.length fi ids.length j ids →
      (∀ t, t < ids.length → ∃ V, m.vertices[ids.getD t 0]? = some V ∧
          V.h = some (E.length + t)) →
      ∃ m2, ((faceKeys ids).drop j).foldlM linkFaceEdge m = some m2 ∧
        m2.vertices = m.vertices ∧
        m2.faces = m.faces ∧
        m2.edges = E ++ partialBlock E.length fi ids.length ids.length ids := by
  intro d
  induction d with
  | zero =>
    intro j hj m hE hV
    have hjn : j = ids.length := by omega
    subst hjn
    have hdrop : (faceKeys ids).drop ids.length = [] := by
      apply List.drop_eq_nil_of_le
      rw [faceKeys_length]
    rw [hdrop]
    exact ⟨m, rfl, rfl, rfl, hE⟩
  | succ d ih =>
    intro j hj m hE hV
    have hjn : j < ids.length := by omega
    have hjk : j < (faceKeys ids).length := by rw [faceKeys_length]; exact hjn
    have hdrop : (faceKeys ids).drop j
        = (ids.getD j 0, ids.getD ((j + 1) % ids.length) 0)
            :: (faceKeys ids).drop (j + 1) := by
      rw [List.drop_eq_getElem_cons hjk]
      congr 1
      have h1 := faceKeys_getElem? ids j hjn
      rw [List.getElem?_eq_getElem hjk] at h1
      exact Option.some.inj h1
    obtain ⟨V1, hV1, hV1h⟩ := hV j hjn
    have hmod : (j + 1) % ids.length < ids.length := Nat.mod_lt _ (by omega)
    obtain ⟨V2, hV2, hV2h⟩ := hV ((j + 1) % ids.length) hmod
    have hred : linkFaceEdge m (ids.getD j 0, ids.getD ((j + 1) % ids.length) 0)
        = (m.vertices[ids.getD j 0]? >>= fun V1 =>
            V1.h >>= fun e1 =>
              m.vertices[ids.getD ((j + 1) % ids.length) 0]? >>= fun V2 =>
                V2.h >>= fun e2 =>
                  pure (Mesh.modifyEdge
                          (Mesh.modifyEdge m e1 (setNextF (some e2))) e2
                          (setPrevF (some e1)))) := rfl
    have hstep : linkFaceEdge m (ids.getD j 0, ids.getD ((j + 1) % ids.length) 0)
        = some (Mesh.modifyEdge
            (Mesh.modifyEdge m (E.length + j)
              (setNextF (some (E.length + (j + 1) % ids.length))))
            (E.length + (j + 1) % ids.length)
            (setPrevF (some (E.length + j)))) := by
      rw [hred, hV1]
      simp only [Option.bind_eq_bind, Option.some_bind]
      rw [hV1h]
      simp only [Option.bind_eq_bind, Option.some_bind]
      rw [hV2]
      simp only [Option.bind_eq_bind, Option.some_bind]
      rw [hV2h]
      simp only [Option.bind_eq_bind, Option.some_bind, Option.pure_def]
    have hE2 : (Mesh.modifyEdge
          (Mesh.modifyEdge m (E.length + j)
            (setNextF (some (E.length + (j + 1) % ids.length))))
          (E.length + (j + 1) % ids.length)
          (setPrevF (some (E.length + j)))).edges
        = E ++ partialBlock E.length fi ids.length (j + 1) ids := by
      show Mesh.listModify (Mesh.listModify m.edges (E.length + j)
            (setNextF (some (E.length + (j + 1) % ids.length))))
          (E.length + (j + 1) % ids.length)
          (setPrevF (some (E.length + j)))
        = E ++ partialBlock E.length fi ids.length (j + 1) ids
      rw [hE]
      exact linkStep_edges E fi ids j hjn
    obtain ⟨m2, hfold, hv, hf, he⟩ := ih (j + 1) (by omega)
        (Mesh.modifyEdge
          (Mesh.modifyEdge m (E.length + j)
            (setNextF (some (E.length + (j + 1) % ids.length))))
          (E.length + (j + 1) % ids.length)
          (setPrevF (some (E.length + j))))
        hE2
        (fun t ht => hV t ht)
    refine ⟨m2, ?_, hv, hf, he⟩
    rw [hdrop, List.foldlM_cons, hstep]
    simp only [Option.bind_eq_bind, Option.some_bind]
    exact hfold

/-- Step 3 for a single face: buildFace pushes one face record pointing
at the last half edge of the block, appends the linked block of fresh
half edges, extends the directed-edge table by the face keys bound to
their creation indices, and keeps the vertex count. -/
theorem buildFace_spec (m : Mesh α) (s : List ((Nat × Nat) × Nat)) (ids : List Nat)
    (hval : ∀ v ∈ ids, v < m.vertices.length)
    (hnodup : ids.Nodup)
    (hkeys : (s.map Prod.fst ++ faceKeys ids).Nodup) :
    ∃ m2, buildFace (m, s) ids
        = some (m2, s ++ tableOfKeys m.edges.length (faceKeys ids)) ∧
      m2.vertices.length = m.vertices.length ∧
      m2.edges = m.edges ++ linkedBlock m.edges.length m.faces.length ids ∧
      m2.faces = m.faces ++ [face3 m.edges.length ids] := by
  have hred : buildFace (m, s) ids
      = ((faceKeys ids).foldlM (addFaceEdge m.faces.length)
          (⟨m.vertices, m.edges, m.faces ++ [{ h := none }]⟩, s) >>= fun r1 =>
         (faceKeys ids).foldlM linkFaceEdge r1.1 >>= fun m2 =>
         pure (m2, r1.2)) := rfl
  have ha : ∀ kv ∈ faceKeys ids,
      kv.1 < (⟨m.vertices, m.edges, m.faces ++ [{ h := none }]⟩ : Mesh α).vertices.length ∧
      kv.2 < (⟨m.vertices, m.edges, m.faces ++ [{ h := none }]⟩ : Mesh α).vertices.length := by
    intro kv hkv
    have hm := List.of_mem_zip hkv
    refine ⟨hval kv.1 hm.1, hval kv.2 ?_⟩
    exact (List.mem_rotate).mp hm.2
  have hb : m.faces.length
      < (⟨m.vertices, m.edges, m.faces ++ [{ h := none }]⟩ : Mesh α).faces.length := by
    simp
  have hd : ((faceKeys ids).map Prod.fst).Nodup := by
    rw [faceKeys_map_fst]
    exact hnodup
  obtain ⟨m1, hfold1, hlen1, hedges1, hfaces1, hframe1, hpos1⟩ :=
    loop1_spec m.faces.length (faceKeys ids)
      (⟨m.vertices, m.edges, m.faces ++ [{ h := none }]⟩ : Mesh α) s ha hb hkeys hd
  have hE1 : m1.edges = m.edges
      ++ partialBlock m.edges.length m.faces.length ids.length 0 ids := by
    rw [hedges1, partialBlock_zero]
  have hV : ∀ t, t < ids.length → ∃ V, m1.vertices[ids.getD t 0]? = some V ∧
      V.h = some (m.edges.length + t) := by
    intro t ht
    have htk : t < (faceKeys ids).length := by rw [faceKeys_length]; exact ht
    obtain ⟨V, h1, h2⟩ := hpos1 t htk
    have hget : (faceKeys ids).get ⟨t, htk⟩
        = (ids.getD t 0, ids.getD ((t + 1) % ids.length) 0) := by
      have h3 := faceKeys_getElem? ids t ht
      rw [List.getElem?_eq_getElem htk] at h3
      exact Option.some.inj h3
    refine ⟨V, ?_, h2⟩
    rw [← show ((faceKeys ids).get ⟨t, htk⟩).1 = ids.getD t 0 from congrArg Prod.fst hget]
    exact h1
  obtain ⟨m2, hfold2, hv2, hf2, he2⟩ :=
    loop2_aux m.faces.length ids m.edges ids.length 0 (by omega) m1 hE1 hV
  rw [List.drop_zero] at hfold2
  refine ⟨m2, ?_, ?_, ?_, ?_⟩
  · rw [hred, hfold1]
    simp only [Option.bind_eq_bind, Option.some_bind]
    rw [hfold2]
    simp only [Option.bind_eq_bind, Option.some_bind, Option.pure_def]
  · rw [hv2]
    exact hlen1
  · rw [he2, partialBlock_full]
  · rw [hf2, hfaces1]
    by_cases h0 : ids.length = 0
    · have hk0 : (faceKeys ids).length = 0 := by rw [faceKeys_length]; exact h0
      rw [if_pos hk0]
      show m.faces ++ [{ h := none }] = m.faces ++ [face3 m.edges.length ids]
      unfold face3
      rw [if_pos h0]
    · have hk0 : ¬ (faceKeys ids).length = 0 := by rw [faceKeys_length]; exact h0
      rw [if_neg hk0]
      show (m.faces ++ [({ h := none } : HFace)]).set m.faces.length
            { h := some (m.edges.length + (faceKeys ids).length - 1) }
          = m.faces ++ [face3 m.edges.length ids]
      rw [faceKeys_length]
      have hset := set_append_right m.faces [({ h := none } : HFace)] 0
        ({ h := some (m.edges.length + ids.length - 1) } : HFace)
      rw [Nat.add_zero] at hset
      rw [hset]
      unfold face3
      rw [if_neg h0]
      rfl

theorem linkedBlock_length (base fi : Nat) (ids : List Nat) :
    (linkedBlock base fi ids).length = ids.length := by
  unfold linkedBlock
  simp

/-- Step 3 of loadFileFromLines over the whole face list: the fold of
buildFace appends the linked block of every face, one face record per
face, and the directed-edge table in creation order, never touching the
vertex count. -/
theorem step3_spec :
    ∀ (F : List (List Nat)) (m : Mesh α) (s : List ((Nat × Nat) × Nat)),
      (∀ ids ∈ F, ∀ v ∈ ids, v < m.vertices.length) →
      (∀ ids ∈ F, ids.Nodup) →
      ((s.map Prod.fst ++ keysOf F).Nodup) →
      ∃ m2, F.foldlM buildFace (m, s)
          = some (m2, s ++ table3 m.edges.length F) ∧
        m2.vertices.length = m.vertices.length ∧
        m2.edges = m.edges ++ edges3 m.edges.length m.faces.length F ∧
        m2.faces = m.faces ++ faces3 m.edges.length F := by
  intro F
  induction F with
  | nil =>
    intro m s hval hnodup hkeys
    refine ⟨m, ?_, rfl, ?_, ?_⟩
    · show some (m, s) = some (m, s ++ table3 m.edges.length [])
      rw [show table3 m.edges.length [] = [] from rfl, List.append_nil]
    · rw [show edges3 m.edges.length m.faces.length [] = [] from rfl, List.append_nil]
    · rw [show faces3 m.edges.length [] = [] from rfl, List.append_nil]
  | cons ids F2 ih =>
    intro m s hval hnodup hkeys
    have hkcons : keysOf (ids :: F2) = faceKeys ids ++ keysOf F2 := rfl
    rw [hkcons, ← List.append_assoc] at hkeys
    have hkeys1 : (s.map Prod.fst ++ faceKeys ids).Nodup :=
      (List.nodup_append.mp hkeys).1
    obtain ⟨m1, hfold1, hlen1, hedges1, hfaces1⟩ :=
      buildFace_spec m s ids (hval ids (List.mem_cons_self ids F2))
        (hnodup ids (List.mem_cons_self ids F2)) hkeys1
    have hmap1 : (s ++ tableOfKeys m.edges.length (faceKeys ids)).map Prod.fst
        = s.map Prod.fst ++ faceKeys ids := by
      rw [List.map_append, tableOfKeys_map_fst]
    have hval2 : ∀ ids2 ∈ F2, ∀ v ∈ ids2, v < m1.vertices.length := by
      intro ids2 h2 v hv
      rw [hlen1]
      exact hval ids2 (List.mem_cons_of_mem ids h2) v hv
    have hnodup2 : ∀ ids2 ∈ F2, ids2.Nodup := by
      intro ids2 h2
      exact hnodup ids2 (List.mem_cons_of_mem ids h2)
    have hkeys2 : ((s ++ tableOfKeys m.edges.length (faceKeys ids)).map Prod.fst
        ++ keysOf F2).Nodup := by
      rw [hmap1]
      rw [List.append_assoc] at hkeys
      rw [← List.append_assoc] at hkeys
      exact hkeys
    obtain ⟨m2, hfold2, hlen2, hedges2, hfaces2⟩ :=
      ih m1 (s ++ tableOfKeys m.edges.length (faceKeys ids)) hval2 hnodup2 hkeys2
    have hm1el : m1.edges.length = m.edges.length + ids.length := by
      rw [hedges1, List.length_append, linkedBlock_length]
    have hm1fl : m1.faces.length = m.faces.length + 1 := by
      rw [hfaces1, List.length_append, List.length_singleton]
    refine ⟨m2, ?_, ?_, ?_, ?_⟩
    · rw [List.foldlM_cons, hfold1]
      simp only [Option.bind_eq_bind, Option.some_bind]
      rw [hfold2, hm1el]
      have htbl : table3 m.edges.length (ids :: F2)
          = tableOfKeys m.edges.length (faceKeys ids)
              ++ table3 (m.edges.length + ids.length) F2 := rfl
      rw [htbl, List.append_assoc]
    · rw [hlen2, hlen1]
    · rw [hedges2, hm1el, hm1fl, hedges1]
      have hed : edges3 m.edges.length m.faces.length (ids :: F2)
          = linkedBlock m.edges.length m.faces.length ids
              ++ edges3 (m.edges.length + ids.length) (m.faces.length + 1) F2 := rfl
      rw [hed, List.append_assoc]
    · rw [hfaces2, hm1el, hfaces1]
      have hfc : faces3 m.edges.length (ids :: F2)
          = face3 m.edges.length ids :: faces3 (m.edges.length + ids.length) F2 := rfl
      rw [hfc, List.append_assoc]
      rfl

end Loop2Proof

section Step4Lemmas

theorem tableOfKeys_append : ∀ (K1 K2 : List (Nat × Nat)) (b : Nat),
    tableOfKeys b (K1 ++ K2) = tableOfKeys b K1 ++ tableOfKeys (b + K1.length) K2 := by
  intro K1
  induction K1 with
  | nil => intro K2 b; simp [tableOfKeys]
  | cons k rest ih =>
    intro K2 b
    show (k, b) :: tableOfKeys (b + 1) (rest ++ K2)
        = (k, b) :: tableOfKeys (b + 1) rest ++ tableOfKeys (b + (rest.length + 1)) K2
    rw [ih K2 (b + 1)]
    have : b + 1 + rest.length = b + (rest.length + 1) := by omega
    rw [this]
    rfl

theorem table3_eq_tableOfKeys : ∀ (F : List (List Nat)) (b : Nat),
    table3 b F = tableOfKeys b (keysOf F) := by
  intro F
  induction F with
  | nil => intro b; rfl
  | cons ids rest ih =>
    intro b
    show tableOfKeys b (faceKeys ids) ++ table3 (b + ids.length) rest
        = tableOfKeys b (faceKeys ids ++ keysOf rest)
    rw [tableOfKeys_append, faceKeys_length, ih]

theorem assocFind_tableOfKeys_not_mem : ∀ (K : List (Nat × Nat)) (b : Nat)
    (k : Nat × Nat), k ∉ K → assocFind k (tableOfKeys b K) = none := by
  intro K
  induction K with
  | nil => intro b k h; rfl
  | cons k1 rest ih =>
    intro b k h
    show (if k1 = k then some b else assocFind k (tableOfKeys (b + 1) rest)) = none
    rw [if_neg (fun hc => h (by simp [hc]))]
    exact ih (b + 1) k (fun hc => h (List.mem_cons_of_mem k1 hc))

theorem assocFind_tableOfKeys_some : ∀ (K : List (Nat × Nat)) (b u : Nat)
    (k : Nat × Nat), K.Nodup → K[u]? = some k →
    assocFind k (tableOfKeys b K) = some (b + u) := by
  intro K
  induction K with
  | nil => intro b u k hn h; simp at h
  | cons k1 rest ih =>
    intro b u k hn h
    cases u with
    | zero =>
      have hk : k1 = k := by simpa using h
      show (if k1 = k then some b else _) = some (b + 0)
      rw [if_pos hk, Nat.add_zero]
    | succ u2 =>
      have h2 : rest[u2]? = some k := by simpa using h
      have hk : k1 ≠ k := by
        intro hc
        have hmem : k ∈ rest := List.getElem?_mem h2
        rw [hc] at hn
        exact (List.nodup_cons.mp hn).1 hmem
      show (if k1 = k then some b else assocFind k (tableOfKeys (b + 1) rest))
          = some (b + (u2 + 1))
      rw [if_neg hk, ih (b + 1) u2 k (List.nodup_cons.mp hn).2 h2]
      have : b + 1 + u2 = b + (u2 + 1) := by omega
      rw [this]

theorem assocFind_tableOfKeys_mem : ∀ (K : List (Nat × Nat)) (b j : Nat)
    (k : Nat × Nat), assocFind k (tableOfKeys b K) = some j →
    ∃ u, u < K.length ∧ j = b + u ∧ K[u]? = some k := by
  intro K
  induction K with
  | nil => intro b j k h; simp [tableOfKeys, assocFind] at h
  | cons k1 rest ih =>
    intro b j k h
    have hstep : (if k1 = k then some b else assocFind k (tableOfKeys (b + 1) rest))
        = some j := h
    by_cases hk : k1 = k
    · rw [if_pos hk] at hstep
      refine ⟨0, by simp, by simpa using hstep.symm, ?_⟩
      simp [hk]
    · rw [if_neg hk] at hstep
      obtain ⟨u, hu, hj, hk2⟩ := ih (b + 1) j k hstep
      refine ⟨u + 1, by simp; omega, by omega, by simpa using hk2⟩

theorem edges3_length : ∀ (F : List (List Nat)) (b fi : Nat),
    (edges3 b fi F).length = (keysOf F).length := by
  intro F
  induction F with
  | nil => intro b fi; rfl
  | cons ids rest ih =>
    intro b fi
    show (linkedBlock b fi ids ++ edges3 (b + ids.length) (fi + 1) rest).length
        = (faceKeys ids ++ keysOf rest).length
    rw [List.length_append, List.length_append, linkedBlock_length,
        faceKeys_length, ih]

theorem linkedBlock_getElem? (base fi : Nat) (ids : List Nat) (k : Nat)
    (hk : k < ids.length) :
    (linkedBlock base fi ids)[k]? = some
      { head := some (ids.getD ((k + 1) % ids.length) 0),
        face := some fi, pair := none,
        next := some (base + (k + 1) % ids.length),
        prev := some (base + (k + ids.length - 1) % ids.length) } := by
  unfold linkedBlock
  rw [List.getElem?_map, List.getElem?_range hk]
  rfl

theorem edges3_pair_none : ∀ (F : List (List Nat)) (b fi t : Nat) (e : HEdge),
    (edges3 b fi F)[t]? = some e → e.pair = none := by
  intro F
  induction F with
  | nil => intro b fi t e h; simp [edges3] at h
  | cons ids rest ih =>
    intro b fi t e h
    have hsplit : (linkedBlock b fi ids ++ edges3 (b + ids.length) (fi + 1) rest)[t]?
        = some e := h
    by_cases ht : t < ids.length
    · rw [List.getElem?_append_left (by rw [linkedBlock_length]; exact ht)] at hsplit
      rw [linkedBlock_getElem? b fi ids t ht] at hsplit
      have := Option.some.inj hsplit
      rw [← this]
    · rw [List.getElem?_append_right (by rw [linkedBlock_length]; omega)] at hsplit
      exact ih (b + ids.length) (fi + 1) (t - (linkedBlock b fi ids).length) e hsplit

theorem getElem?_concat_len {β : Type} (l : List β) (a : β) :
    (l ++ [a])[l.length]? = some a := by
  rw [List.getElem?_append_right (Nat.le_refl l.length), Nat.sub_self]
  rfl

end Step4Lemmas

section Step4Proof

variable {α : Type}

/-- pairEntry written out on an explicit state and table entry. -/
theorem pairEntry_red [LinearOrderedField α] (s : List ((Nat × Nat) × Nat))
    (m : Mesh α) (bnd : List (Nat × Nat)) (kp : Nat × Nat) (p : Nat) :
    pairEntry s (m, bnd) ((kp, p))
      = match assocFind (kp.2, kp.1) s with
        | some j => (Mesh.modifyEdge m p (setPairF (some j)), bnd)
        | none =>
          ({ vertices := m.vertices,
             edges := Mesh.listModify m.edges p (setPairF (some m.edges.length))
               ++ [{ head := if kp.1 < m.vertices.length then some kp.1 else none,
                     face := none, pair := some p, prev := none, next := none }],
             faces := m.faces },
           bInsert kp.2 m.edges.length bnd) := rfl

set_option maxHeartbeats 1000000

/-- The step 4 fold invariant: processing the remaining suffix of the
directed-edge table pairs each processed interior half edge with the
index of its reversed key, gives each processed boundary-creating half
edge a synthesised twin paired mutually with it, leaves unprocessed
interior edges and everything but edges untouched, and keeps every
boundary-table value pointing at a twin index. -/
theorem pairLoop_inv [LinearOrderedField α] (K : List (Nat × Nat)) (hK : K.Nodup)
    (Vfix : List (HVertex α)) (Ffix : List HFace) (E3 : List HEdge)
    (hKb : ∀ kv ∈ K, kv.1 < Vfix.length ∧ kv.2 < Vfix.length)
    (hE3len : E3.length = K.length) :
    ∀ (K2 K1 : List (Nat × Nat)), K = K1 ++ K2 →
    ∀ (m : Mesh α) (bnd : List (Nat × Nat)),
      m.vertices = Vfix →
      m.faces = Ffix →
      K.length ≤ m.edges.length →
      (∀ t, K1.length ≤ t → t < K.length → m.edges[t]? = E3[t]?) →
      (∀ t, t < K1.length → ∀ kt, K[t]? = some kt →
        (∀ j, assocFind (kt.2, kt.1) (tableOfKeys 0 K) = some j →
          ∃ e, E3[t]? = some e ∧ m.edges[t]? = some (setPairF (some j) e)) ∧
        (assocFind (kt.2, kt.1) (tableOfKeys 0 K) = none →
          ∃ w e, K.length ≤ w ∧ E3[t]? = some e ∧
            m.edges[t]? = some (setPairF (some w) e) ∧
            m.edges[w]? = some (twinE kt.1 t))) →
      (∀ w, K.length ≤ w → w < m.edges.length →
        ∃ t kt, t < K1.length ∧ K[t]? = some kt ∧
          m.edges[w]? = some (twinE kt.1 t) ∧
          ∃ e, m.edges[t]? = some e ∧ e.pair = some w) →
      (∀ kv ∈ bnd, K.length ≤ kv.2 ∧ kv.2 < m.edges.length) →
      ∃ m2 bnd2,
        (tableOfKeys K1.length K2).foldl (pairEntry (tableOfKeys 0 K)) (m, bnd)
          = (m2, bnd2) ∧
        m2.vertices = Vfix ∧ m2.faces = Ffix ∧ K.length ≤ m2.edges.length ∧
        (∀ t, t < K.length → ∀ kt, K[t]? = some kt →
          (∀ j, assocFind (kt.2, kt.1) (tableOfKeys 0 K) = some j →
            ∃ e, E3[t]? = some e ∧ m2.edges[t]? = some (setPairF (some j) e)) ∧
          (assocFind (kt.2, kt.1) (tableOfKeys 0 K) = none →
            ∃ w e, K.length ≤ w ∧ E3[t]? = some e ∧
              m2.edges[t]? = some (setPairF (some w) e) ∧
              m2.edges[w]? = some (twinE kt.1 t))) ∧
        (∀ w, K.length ≤ w → w < m2.edges.length →
          ∃ t kt, t < K.length ∧ K[t]? = some kt ∧
            m2.edges[w]? = some (twinE kt.1 t) ∧
            ∃ e, m2.edges[t]? = some e ∧ e.pair = some w) ∧
        (∀ kv ∈ bnd2, K.length ≤ kv.2 ∧ kv.2 < m2.edges.length) := by
  intro K2
  induction K2 with
  | nil =>
    intro K1 hKeq m bnd hv hf hlen hU hP hW hB
    have hK1 : K1.length = K.length := by rw [hKeq]; simp
    refine ⟨m, bnd, rfl, hv, hf, hlen, ?_, ?_, hB⟩
    · intro t ht
      exact hP t (by omega)
    · intro w hw1 hw2
      obtain ⟨t, kt, ht, h2, h3, h4⟩ := hW w hw1 hw2
      exact ⟨t, kt, by omega, h2, h3, h4⟩
  | cons kp K2i ih =>
    intro K1 hKeq m bnd hv hf hlen hU hP hW hB
    have hKlen : K.length = K1.length + (K2i.length + 1) := by rw [hKeq]; simp
    have hp_lt : K1.length < K.length := by omega
    have hKp : K[K1.length]? = some kp := by
      rw [hKeq, List.getElem?_append_right (Nat.le_refl K1.length), Nat.sub_self]
      simp
    have hkpmem : kp ∈ K := by
      rw [hKeq]
      exact List.mem_append_right _ (List.mem_cons_self kp K2i)
    have hE3p : ∃ e, E3[K1.length]? = some e := by
      have : K1.length < E3.length := by omega
      exact ⟨E3.get ⟨K1.length, this⟩, List.getElem?_eq_getElem this⟩
    obtain ⟨ep, hep⟩ := hE3p
    have hmp : m.edges[K1.length]? = some ep := by
      rw [hU K1.length (Nat.le_refl _) hp_lt]
      exact hep
    have hcons : tableOfKeys K1.length (kp :: K2i)
        = (kp, K1.length) :: tableOfKeys (K1.length + 1) K2i := rfl
    have hK1len : (K1 ++ [kp]).length = K1.length + 1 := by simp
    have hKeq2 : K = (K1 ++ [kp]) ++ K2i := by
      rw [hKeq, List.append_assoc]
      rfl
    cases hfind : assocFind (kp.2, kp.1) (tableOfKeys 0 K) with
    | some j =>
      have hstep : pairEntry (tableOfKeys 0 K) (m, bnd) ((kp, K1.length))
          = (Mesh.modifyEdge m K1.length (setPairF (some j)), bnd) := by
        rw [pairEntry_red, hfind]
      have hv1 : (Mesh.modifyEdge m K1.length (setPairF (some j))).vertices = Vfix := hv
      have hf1 : (Mesh.modifyEdge m K1.length (setPairF (some j))).faces = Ffix := hf
      have hlen1 : (Mesh.modifyEdge m K1.length (setPairF (some j))).edges.length
          = m.edges.length := listModify_length _ _ _
      have hU1 : ∀ t, (K1 ++ [kp]).length ≤ t → t < K.length →
          (Mesh.modifyEdge m K1.length (setPairF (some j))).edges[t]? = E3[t]? := by
        intro t ht1 ht2
        rw [hK1len] at ht1
        show (Mesh.listModify m.edges K1.length (setPairF (some j)))[t]? = E3[t]?
        rw [listModify_getElem?_ne _ _ _ _ (by omega)]
        exact hU t (by omega) ht2
      have hP1 : ∀ t, t < (K1 ++ [kp]).length → ∀ kt, K[t]? = some kt →
          (∀ j2, assocFind (kt.2, kt.1) (tableOfKeys 0 K) = some j2 →
            ∃ e, E3[t]? = some e ∧
              (Mesh.modifyEdge m K1.length (setPairF (some j))).edges[t]?
                = some (setPairF (some j2) e)) ∧
          (assocFind (kt.2, kt.1) (tableOfKeys 0 K) = none →
            ∃ w e, K.length ≤ w ∧ E3[t]? = some e ∧
              (Mesh.modifyEdge m K1.length (setPairF (some j))).edges[t]?
                = some (setPairF (some w) e) ∧
              (Mesh.modifyEdge m K1.length (setPairF (some j))).edges[w]?
                = some (twinE kt.1 t)) := by
        intro t ht kt hkt
        rw [hK1len] at ht
        by_cases htp : t = K1.length
        · subst htp
          have hkteq : kt = kp := Option.some.inj (hkt.symm.trans hKp)
          subst hkteq
          constructor
          · intro j2 hj2
            have hjj : j = j2 := Option.some.inj (hfind.symm.trans hj2)
            subst hjj
            refine ⟨ep, hep, ?_⟩
            show (Mesh.listModify m.edges K1.length (setPairF (some j)))[K1.length]? = _
            exact listModify_getElem?_eq _ _ _ _ hmp
          · intro hnone
            rw [hfind] at hnone
            exact absurd hnone (by simp)
        · have ht2 : t < K1.length := by omega
          obtain ⟨hint, hbdy⟩ := hP t ht2 kt hkt
          constructor
          · intro j2 hj2
            obtain ⟨e, he1, he2⟩ := hint j2 hj2
            refine ⟨e, he1, ?_⟩
            show (Mesh.listModify m.edges K1.length (setPairF (some j)))[t]? = _
            rw [listModify_getElem?_ne _ _ _ _ htp]
            exact he2
          · intro hnone
            obtain ⟨w, e, hw1, he1, he2, he3⟩ := hbdy hnone
            refine ⟨w, e, hw1, he1, ?_, ?_⟩
            · show (Mesh.listModify m.edges K1.length (setPairF (some j)))[t]? = _
              rw [listModify_getElem?_ne _ _ _ _ htp]
              exact he2
            · show (Mesh.listModify m.edges K1.length (setPairF (some j)))[w]? = _
              rw [listModify_getElem?_ne _ _ _ _ (by omega)]
              exact he3
      have hW1 : ∀ w, K.length ≤ w →
          w < (Mesh.modifyEdge m K1.length (setPairF (some j))).edges.length →
          ∃ t kt, t < (K1 ++ [kp]).length ∧ K[t]? = some kt ∧
            (Mesh.modifyEdge m K1.length (setPairF (some j))).edges[w]?
              = some (twinE kt.1 t) ∧
            ∃ e, (Mesh.modifyEdge m K1.length (setPairF (some j))).edges[t]?
              = some e ∧ e.pair = some w := by
        intro w hw1 hw2
        rw [hlen1] at hw2
        obtain ⟨t, kt, ht, h2, h3, ⟨e, h4, h5⟩⟩ := hW w hw1 hw2
        refine ⟨t, kt, by rw [hK1len]; omega, h2, ?_, ⟨e, ?_, h5⟩⟩
        · show (Mesh.listModify m.edges K1.length (setPairF (some j)))[w]? = _
          rw [listModify_getElem?_ne _ _ _ _ (by omega)]
          exact h3
        · show (Mesh.listModify m.edges K1.length (setPairF (some j)))[t]? = _
          rw [listModify_getElem?_ne _ _ _ _ (by omega)]
          exact h4
      have hB1 : ∀ kv ∈ bnd, K.length ≤ kv.2 ∧
          kv.2 < (Mesh.modifyEdge m K1.length (setPairF (some j))).edges.length := by
        intro kv hkv
        rw [hlen1]
        exact hB kv hkv
      obtain ⟨m2, bnd2, hfold, hc⟩ := ih (K1 ++ [kp]) hKeq2
        (Mesh.modifyEdge m K1.length (setPairF (some j))) bnd
        hv1 hf1 (by rw [hlen1]; exact hlen) hU1 hP1 hW1 hB1
      rw [hK1len] at hfold
      refine ⟨m2, bnd2, ?_, hc⟩
      rw [hcons, List.foldl_cons, hstep]
      exact hfold
    | none =>
      have hbound : kp.1 < m.vertices.length := by
        rw [hv]
        exact (hKb kp hkpmem).1
      have hstep : pairEntry (tableOfKeys 0 K) (m, bnd) ((kp, K1.length))
          = ({ vertices := m.vertices,
               edges := Mesh.listModify m.edges K1.length
                   (setPairF (some m.edges.length)) ++ [twinE kp.1 K1.length],
               faces := m.faces },
             bInsert kp.2 m.edges.length bnd) := by
        rw [pairEntry_red, hfind, if_pos hbound]
        rfl
      set m1 : Mesh α :=
        { vertices := m.vertices,
          edges := Mesh.listModify m.edges K1.length
              (setPairF (some m.edges.length)) ++ [twinE kp.1 K1.length],
          faces := m.faces } with hm1
      have hmodlen : (Mesh.listModify m.edges K1.length
          (setPairF (some m.edges.length))).length = m.edges.length :=
        listModify_length _ _ _
      have hlen1 : m1.edges.length = m.edges.length + 1 := by
        show (Mesh.listModify m.edges K1.length
            (setPairF (some m.edges.length)) ++ [twinE kp.1 K1.length]).length
          = m.edges.length + 1
        rw [List.length_append, hmodlen]
        rfl
      have hsmall : ∀ t, t < m.edges.length → t ≠ K1.length →
          m1.edges[t]? = m.edges[t]? := by
        intro t ht htp
        show (Mesh.listModify m.edges K1.length
            (setPairF (some m.edges.length)) ++ [twinE kp.1 K1.length])[t]?
          = m.edges[t]?
        rw [List.getElem?_append_left (by rw [hmodlen]; exact ht)]
        exact listModify_getElem?_ne _ _ _ _ htp
      have hatp : m1.edges[K1.length]?
          = some (setPairF (some m.edges.length) ep) := by
        show (Mesh.listModify m.edges K1.length
            (setPairF (some m.edges.length)) ++ [twinE kp.1 K1.length])[K1.length]?
          = _
        rw [List.getElem?_append_left (by rw [hmodlen]; omega)]
        exact listModify_getElem?_eq _ _ _ _ hmp
      have hatw : m1.edges[m.edges.length]? = some (twinE kp.1 K1.length) := by
        show (Mesh.listModify m.edges K1.length
            (setPairF (some m.edges.length)) ++ [twinE kp.1 K1.length])[m.edges.length]?
          = _
        have := getElem?_concat_len (Mesh.listModify m.edges K1.length
            (setPairF (some m.edges.length))) (twinE kp.1 K1.length)
        rw [hmodlen] at this
        exact this
      have hv1 : m1.vertices = Vfix := hv
      have hf1 : m1.faces = Ffix := hf
      have hU1 : ∀ t, (K1 ++ [kp]).length ≤ t → t < K.length →
          m1.edges[t]? = E3[t]? := by
        intro t ht1 ht2
        rw [hK1len] at ht1
        rw [hsmall t (by omega) (by omega)]
        exact hU t (by omega) ht2
      have hP1 : ∀ t, t < (K1 ++ [kp]).length → ∀ kt, K[t]? = some kt →
          (∀ j2, assocFind (kt.2, kt.1) (tableOfKeys 0 K) = some j2 →
            ∃ e, E3[t]? = some e ∧ m1.edges[t]? = some (setPairF (some j2) e)) ∧
          (assocFind (kt.2, kt.1) (tableOfKeys 0 K) = none →
            ∃ w e, K.length ≤ w ∧ E3[t]? = some e ∧
              m1.edges[t]? = some (setPairF (some w) e) ∧
              m1.edges[w]? = some (twinE kt.1 t)) := by
        intro t ht kt hkt
        rw [hK1len] at ht
        by_cases htp : t = K1.length
        · subst htp
          have hkteq : kt = kp := Option.some.inj (hkt.symm.trans hKp)
          subst hkteq
          constructor
          · intro j2 hj2
            rw [hfind] at hj2
            exact absurd hj2 (by simp)
          · intro _
            exact ⟨m.edges.length, ep, hlen, hep, hatp, hatw⟩
        · have ht2 : t < K1.length := by omega
          obtain ⟨hint, hbdy⟩ := hP t ht2 kt hkt
          constructor
          · intro j2 hj2
            obtain ⟨e, he1, he2⟩ := hint j2 hj2
            have htlt : t < m.edges.length := by omega
            exact ⟨e, he1, by rw [hsmall t htlt htp]; exact he2⟩
          · intro hnone
            obtain ⟨w, e, hw1, he1, he2, he3⟩ := hbdy hnone
            have hwlt : w < m.edges.length := by
              have := List.getElem?_eq_some.mp he3
              exact this.1
            refine ⟨w, e, hw1, he1, ?_, ?_⟩
            · rw [hsmall t (by omega) htp]
              exact he2
            · rw [hsmall w hwlt (by omega)]
              exact he3
      have hW1 : ∀ w, K.length ≤ w → w < m1.edges.length →
          ∃ t kt, t < (K1 ++ [kp]).length ∧ K[t]? = some kt ∧
            m1.edges[w]? = some (twinE kt.1 t) ∧
            ∃ e, m1.edges[t]? = some e ∧ e.pair = some w := by
        intro w hw1 hw2
        rw [hlen1] at hw2
        by_cases hwold : w < m.edges.length
        · obtain ⟨t, kt, ht, h2, h3, ⟨e, h4, h5⟩⟩ := hW w hw1 hwold
          refine ⟨t, kt, by rw [hK1len]; omega, h2, ?_, ⟨e, ?_, h5⟩⟩
          · rw [hsmall w hwold (by omega)]
            exact h3
          · rw [hsmall t (by omega) (by omega)]
            exact h4
        · have hweq : w = m.edges.length := by omega
          subst hweq
          refine ⟨K1.length, kp, by rw [hK1len]; omega, hKp, hatw,
            ⟨setPairF (some m.edges.length) ep, hatp, rfl⟩⟩
      have hB1 : ∀ kv ∈ bInsert kp.2 m.edges.length bnd,
          K.length ≤ kv.2 ∧ kv.2 < m1.edges.length := by
        intro kv hkv
        rw [hlen1]
        rcases bInsert_values hkv with hold | hnew
        · have := hB kv hold
          exact ⟨this.1, by omega⟩
        · rw [hnew]
          exact ⟨hlen, by omega⟩
      obtain ⟨m2, bnd2, hfold, hc⟩ := ih (K1 ++ [kp]) hKeq2 m1
        (bInsert kp.2 m.edges.length bnd)
        hv1 hf1 (by omega) hU1 hP1 hW1 hB1
      rw [hK1len] at hfold
      refine ⟨m2, bnd2, ?_, hc⟩
      rw [hcons, List.foldl_cons, hstep]
      exact hfold

end Step4Proof

section Step5Proof

variable {α : Type}

theorem listModify_map_pair (l : List HEdge) (i : Nat) (f : HEdge → HEdge)
    (hf : ∀ e, (f e).pair = e.pair) (t : Nat) :
    ((Mesh.listModify l i f)[t]?).map HEdge.pair = (l[t]?).map HEdge.pair := by
  by_cases hti : t = i
  · subst hti
    cases h : l[t]? with
    | none =>
      have hsame : Mesh.listModify l t f = l := by
        unfold Mesh.listModify
        rw [h]
      rw [hsame, h]
    | some x =>
      rw [listModify_getElem?_eq _ _ _ _ h]
      simp [h, hf]
  · rw [listModify_getElem?_ne _ _ _ _ hti]

/-- One step 5 entry only rewrites next and prev fields of half edges at
boundary-table value indices: everything below the interior-edge count
and every pair field anywhere is untouched. -/
theorem linkBoundaryEntry_frame [LinearOrderedField α] (b : List (Nat × Nat))
    (E0 : Nat) (hbv : ∀ kv ∈ b, E0 ≤ kv.2) (m : Mesh α) (kv : Nat × Nat)
    (hkv : E0 ≤ kv.2) (m1 : Mesh α) (h : linkBoundaryEntry b m kv = some m1) :
    m1.vertices = m.vertices ∧ m1.faces = m.faces ∧
    m1.edges.length = m.edges.length ∧
    (∀ i, i < E0 → m1.edges[i]? = m.edges[i]?) ∧
    (∀ i : Nat, (m1.edges[i]?).map HEdge.pair = (m.edges[i]?).map HEdge.pair) := by
  have hred : linkBoundaryEntry b m kv
      = (m.edges[kv.2]? >>= fun e =>
          if e.next = none then
            (e.head >>= fun a =>
              match bFind a b with
              | some j2 =>
                some (Mesh.modifyEdge (Mesh.modifyEdge m kv.2 (setNextF (some j2))) j2
                        (setPrevF (some kv.2)))
              | none => none)
          else some m) := rfl
  rw [hred] at h
  cases he : m.edges[kv.2]? with
  | none =>
    rw [he] at h
    exact absurd h (by simp)
  | some e =>
    rw [he] at h
    simp only [Option.bind_eq_bind, Option.some_bind] at h
    by_cases hnx : e.next = none
    · rw [if_pos hnx] at h
      cases hhd : e.head with
      | none =>
        rw [hhd] at h
        exact absurd h (by simp)
      | some a =>
        rw [hhd] at h
        simp only [Option.bind_eq_bind, Option.some_bind] at h
        cases hbf : bFind a b with
        | none =>
          rw [hbf] at h
          exact absurd h (by simp)
        | some j2 =>
          rw [hbf] at h
          have hm1 : m1 = Mesh.modifyEdge (Mesh.modifyEdge m kv.2 (setNextF (some j2)))
              j2 (setPrevF (some kv.2)) := (Option.some.inj h).symm
          have hj2 : E0 ≤ j2 := by
            have hv2 := bFind_mem_values hbf
            obtain ⟨kv2, hkv2, hkv2eq⟩ := List.mem_map.mp hv2
            rw [← hkv2eq]
            exact hbv kv2 hkv2
          subst hm1
          refine ⟨rfl, rfl, ?_, ?_, ?_⟩
          · show (Mesh.listModify (Mesh.listModify m.edges kv.2
                (setNextF (some j2))) j2 (setPrevF (some kv.2))).length
              = m.edges.length
            rw [listModify_length, listModify_length]
          · intro i hi
            show (Mesh.listModify (Mesh.listModify m.edges kv.2
                (setNextF (some j2))) j2 (setPrevF (some kv.2)))[i]? = m.edges[i]?
            rw [listModify_getElem?_ne _ _ _ _ (by omega),
                listModify_getElem?_ne _ _ _ _ (by omega)]
          · intro i
            show ((Mesh.listModify (Mesh.listModify m.edges kv.2
                (setNextF (some j2))) j2 (setPrevF (some kv.2)))[i]?).map HEdge.pair
              = (m.edges[i]?).map HEdge.pair
            rw [listModify_map_pair _ j2 (setPrevF (some kv.2)) (fun e2 => rfl),
                listModify_map_pair _ kv.2 (setNextF (some j2)) (fun e2 => rfl)]
    · rw [if_neg hnx] at h
      have hm1 : m1 = m := (Option.some.inj h).symm
      subst hm1
      exact ⟨rfl, rfl, rfl, fun i _ => rfl, fun i => rfl⟩

/-- Step 5 over any suffix of the boundary table: vertices, faces, the
edge count, every half edge below the interior count, and every pair
field are unchanged. -/
theorem linkBoundary_frame [LinearOrderedField α] (b : List (Nat × Nat)) (E0 : Nat)
    (hbv : ∀ kv ∈ b, E0 ≤ kv.2) :
    ∀ (l : List (Nat × Nat)), (∀ kv ∈ l, E0 ≤ kv.2) →
    ∀ (m m2 : Mesh α), l.foldlM (linkBoundaryEntry b) m = some m2 →
      m2.vertices = m.vertices ∧ m2.faces = m.faces ∧
      m2.edges.length = m.edges.length ∧
      (∀ i, i < E0 → m2.edges[i]? = m.edges[i]?) ∧
      (∀ i : Nat, (m2.edges[i]?).map HEdge.pair = (m.edges[i]?).map HEdge.pair) := by
  intro l
  induction l with
  | nil =>
    intro hl m m2 h
    have hmm : m = m2 := by simpa using h
    subst hmm
    exact ⟨rfl, rfl, rfl, fun i _ => rfl, fun i => rfl⟩
  | cons kv rest ih =>
    intro hl m m2 h
    rw [List.foldlM_cons] at h
    cases hstep : linkBoundaryEntry b m kv with
    | none =>
      rw [hstep] at h
      exact absurd h (by simp)
    | some m1 =>
      rw [hstep] at h
      simp only [Option.bind_eq_bind, Option.some_bind] at h
      obtain ⟨h1v, h1f, h1len, h1lo, h1pair⟩ :=
        linkBoundaryEntry_frame b E0 hbv m kv (hl kv (List.mem_cons_self kv rest)) m1 hstep
      obtain ⟨h2v, h2f, h2len, h2lo, h2pair⟩ :=
        ih (fun kv2 hkv2 => hl kv2 (List.mem_cons_of_mem kv hkv2)) m1 m2 h
      refine ⟨h2v.trans h1v, h2f.trans h1f, h2len.trans h1len, ?_, ?_⟩
      · intro i hi
        rw [h2lo i hi, h1lo i hi]
      · intro i
        rw [h2pair i, h1pair i]

end Step5Proof

section LoadMeshShape

variable {α : Type}

/-- What steps 2 to 5 of the loader leave behind, for a well formed
face description (valid ids, no repeated vertex in a face, no repeated
directed edge): the face list of step 3 survives unchanged, every
interior half edge keeps its step 3 fields except for the pair it
received in step 4, and the pair references form a mutual involution
between interior edges with an existing reverse key and between each
remaining interior edge and its synthesised boundary twin. -/
theorem loadMesh_shape [LinearOrderedField α] (vcs : List (Vec3 α × Vec3 α))
    (fcs : List (List Nat))
    (hval : ∀ ids ∈ fcs, ∀ v ∈ ids, v < vcs.length)
    (hnodup : ∀ ids ∈ fcs, ids.Nodup)
    (hkeys : (keysOf fcs).Nodup)
    (m : Mesh α) (hm : loadMesh vcs fcs = some m) :
    m.faces = faces3 0 fcs ∧
    (keysOf fcs).length ≤ m.edges.length ∧
    (∀ i, i < (keysOf fcs).length → ∃ e x, (edges3 0 0 fcs)[i]? = some e ∧
        m.edges[i]? = some (setPairF (some x) e)) ∧
    (∀ (i : Nat) (e : HEdge), m.edges[i]? = some e →
        ∃ j, e.pair = some j ∧ ∃ e2, m.edges[j]? = some e2 ∧ e2.pair = some i) := by
  have hred : loadMesh vcs fcs
      = (fcs.foldlM buildFace
          (({ vertices := vcs.enum.map
                (fun p => { pos := p.2.1, color := p.2.2, id := p.1, h := none }),
              edges := [], faces := [] } : Mesh α), []) >>= fun r =>
         linkBoundaryPhase (pairPhase r.1 r.2).2 (pairPhase r.1 r.2).1) := rfl
  obtain ⟨m3, hfold3, hlen3, hedges3, hfaces3⟩ := step3_spec fcs
    ({ vertices := vcs.enum.map
         (fun p => { pos := p.2.1, color := p.2.2, id := p.1, h := none }),
       edges := [], faces := [] } : Mesh α) []
    (by intro ids hids v hv; simpa using hval ids hids v hv)
    hnodup (by simpa using hkeys)
  have he3 : m3.edges = edges3 0 0 fcs := by simpa using hedges3
  have hf3 : m3.faces = faces3 0 fcs := by simpa using hfaces3
  have hv3len : m3.vertices.length = vcs.length := by rw [hlen3]; simp
  have hfold3b : fcs.foldlM buildFace
      (({ vertices := vcs.enum.map
            (fun p => { pos := p.2.1, color := p.2.2, id := p.1, h := none }),
          edges := [], faces := [] } : Mesh α), [])
      = some (m3, table3 0 fcs) := by
    rw [hfold3]
    simp [table3_eq_tableOfKeys]
  rw [hred, hfold3b] at hm
  simp only [Option.bind_eq_bind, Option.some_bind] at hm
  have hKb : ∀ kv ∈ keysOf fcs, kv.1 < m3.vertices.length ∧
      kv.2 < m3.vertices.length := by
    intro kv hkv
    obtain ⟨ids, hids, hkvmem⟩ := List.mem_flatMap.mp hkv
    have hmz := List.of_mem_zip hkvmem
    rw [hv3len]
    exact ⟨hval ids hids kv.1 hmz.1,
           hval ids hids kv.2 ((List.mem_rotate).mp hmz.2)⟩
  have hE3len : (edges3 0 0 fcs).length = (keysOf fcs).length := edges3_length fcs 0 0
  have hm3len : m3.edges.length = (keysOf fcs).length := by rw [he3, hE3len]
  obtain ⟨m4, bnd4, hfold4, hv4, hf4, hlen4, hP4, hW4, hB4⟩ :=
    pairLoop_inv (keysOf fcs) hkeys m3.vertices m3.faces (edges3 0 0 fcs)
      hKb hE3len (keysOf fcs) [] (List.nil_append _).symm m3 []
      rfl rfl (by omega)
      (fun t _ ht2 => by rw [he3])
      (fun t ht => absurd ht (by simp))
      (fun w hw1 hw2 => absurd hw2 (by omega))
      (fun kv hkv => absurd hkv (List.not_mem_nil kv))
  rw [List.length_nil] at hfold4
  have hpp : pairPhase m3 (table3 0 fcs) = (m4, bnd4) := by
    unfold pairPhase
    rw [table3_eq_tableOfKeys]
    exact hfold4
  rw [hpp] at hm
  obtain ⟨hFv, hFf, hFlen, hFlo, hFpair⟩ :=
    linkBoundary_frame bnd4 (keysOf fcs).length (fun kv h => (hB4 kv h).1)
      bnd4 (fun kv h => (hB4 kv h).1) m4 m hm
  have hfaces : m.faces = faces3 0 fcs := by rw [hFf, hf4, hf3]
  have hlen : (keysOf fcs).length ≤ m.edges.length := by rw [hFlen]; exact hlen4
  refine ⟨hfaces, hlen, ?_, ?_⟩
  · intro i hi
    have hki : (keysOf fcs)[i]? = some ((keysOf fcs).get ⟨i, hi⟩) :=
      List.getElem?_eq_getElem hi
    obtain ⟨hint, hbdy⟩ := hP4 i hi ((keysOf fcs).get ⟨i, hi⟩) hki
    cases hfind : assocFind (((keysOf fcs).get ⟨i, hi⟩).2,
        ((keysOf fcs).get ⟨i, hi⟩).1) (tableOfKeys 0 (keysOf fcs)) with
    | some j =>
      obtain ⟨e, he, hm4i⟩ := hint j hfind
      exact ⟨e, j, he, by rw [hFlo i hi]; exact hm4i⟩
    | none =>
      obtain ⟨w, e, hw1, he, hm4i, _⟩ := hbdy hfind
      exact ⟨e, w, he, by rw [hFlo i hi]; exact hm4i⟩
  · intro i e hie
    have hilen : i < m.edges.length := (List.getElem?_eq_some.mp hie).1
    by_cases hiE0 : i < (keysOf fcs).length
    · have hki : (keysOf fcs)[i]? = some ((keysOf fcs).get ⟨i, hiE0⟩) :=
        List.getElem?_eq_getElem hiE0
      obtain ⟨hint, hbdy⟩ := hP4 i hiE0 ((keysOf fcs).get ⟨i, hiE0⟩) hki
      cases hfind : assocFind ((((keysOf fcs).get ⟨i, hiE0⟩)).2,
          (((keysOf fcs).get ⟨i, hiE0⟩)).1) (tableOfKeys 0 (keysOf fcs)) with
      | some j =>
        obtain ⟨e1, he1, hm4i⟩ := hint j hfind
        have hpi := hFpair i
        rw [hie, hm4i] at hpi
        have hepair : e.pair = some j := by simpa using hpi
        obtain ⟨u, hu, hju, hku⟩ := assocFind_tableOfKeys_mem _ _ _ _ hfind
        have hjK : j < (keysOf fcs).length := by omega
        have hkj : (keysOf fcs)[j]? = some ((((keysOf fcs).get ⟨i, hiE0⟩)).2,
            (((keysOf fcs).get ⟨i, hiE0⟩)).1) := by
          have hju2 : j = u := by omega
          rw [hju2]
          exact hku
        obtain ⟨hint2, _⟩ := hP4 j hjK _ hkj
        have hrev : assocFind ((((keysOf fcs).get ⟨i, hiE0⟩)).1,
            (((keysOf fcs).get ⟨i, hiE0⟩)).2) (tableOfKeys 0 (keysOf fcs))
            = some (0 + i) :=
          assocFind_tableOfKeys_some _ 0 i _ hkeys hki
        obtain ⟨e2m, he2m, hm4j⟩ := hint2 (0 + i) hrev
        have hjlen : j < m.edges.length := by omega
        have hmj : m.edges[j]? = some (m.edges.get ⟨j, hjlen⟩) :=
          List.getElem?_eq_getElem hjlen
        have hpj := hFpair j
        rw [hmj, hm4j] at hpj
        have hp2 : (m.edges.get ⟨j, hjlen⟩).pair = some (0 + i) := by simpa using hpj
        refine ⟨j, hepair, m.edges.get ⟨j, hjlen⟩, hmj, ?_⟩
        rw [hp2, Nat.zero_add]
      | none =>
        obtain ⟨w, e1, hw1, he1, hm4i, hm4w⟩ := hbdy hfind
        have hpi := hFpair i
        rw [hie, hm4i] at hpi
        have hepair : e.pair = some w := by simpa using hpi
        have hwlen4 : w < m4.edges.length := (List.getElem?_eq_some.mp hm4w).1
        have hwlen : w < m.edges.length := by rw [hFlen]; exact hwlen4
        have hmw : m.edges[w]? = some (m.edges.get ⟨w, hwlen⟩) :=
          List.getElem?_eq_getElem hwlen
        have hpw := hFpair w
        rw [hmw, hm4w] at hpw
        have hp2 : (m.edges.get ⟨w, hwlen⟩).pair = some i := by simpa using hpw
        exact ⟨w, hepair, m.edges.get ⟨w, hwlen⟩, hmw, hp2⟩
    · have hi4 : i < m4.edges.length := by rw [← hFlen]; exact hilen
      obtain ⟨t, kt, htE0, hkt, hm4i, ⟨e1, hm4t, hpair1⟩⟩ := hW4 i (by omega) hi4
      have hpi := hFpair i
      rw [hie, hm4i] at hpi
      have hepair : e.pair = some t := by simpa using hpi
      refine ⟨t, hepair, e1, ?_, hpair1⟩
      rw [hFlo t htE0]
      exact hm4t

end LoadMeshShape

section ClaimPairInvolution

variable {α : Type}

/-- C2: in every mesh the loader builds from a well formed face
description (vertex ids in range, no vertex repeated within a face, no
repeated directed edge), every half edge has a non null pair and the
pair of the pair is the edge itself: a half edge whose reversed directed
pair exists is paired mutually with it, and every other half edge is
paired mutually with its synthesised boundary twin. -/
theorem constructed_pair_involution [LinearOrderedField α]
    (vcs : List (Vec3 α × Vec3 α)) (fcs : List (List Nat))
    (hval : ∀ ids ∈ fcs, ∀ v ∈ ids, v < vcs.length)
    (hnodup : ∀ ids ∈ fcs, ids.Nodup)
    (hkeys : (keysOf fcs).Nodup)
    (m : Mesh α) (hm : loadMesh vcs fcs = some m) :
    ∀ (i : Nat) (e : HEdge), m.edges[i]? = some e →
      ∃ j e2, e.pair = some j ∧ m.edges[j]? = some e2 ∧ e2.pair = some i := by
  intro i e hie
  obtain ⟨-, -, -, hinv⟩ := loadMesh_shape vcs fcs hval hnodup hkeys m hm
  obtain ⟨j, h1, e2, h2, h3⟩ := hinv i e hie
  exact ⟨j, e2, h1, h2, h3⟩

attribute [local semireducible] Rat.mul Rat.add Rat.sub Rat.inv

/-- Witness for C2: the loader builds the triangle mesh from the single
triangle description, and its half edge 0 is paired mutually with its
boundary twin 3. -/
theorem constructed_pair_involution_witness :
    (∀ ids ∈ [[0, 1, 2]], ∀ v ∈ ids, v < triVerts.length) ∧
    (∀ ids ∈ [[0, 1, 2]], List.Nodup ids) ∧
    (keysOf [[0, 1, 2]]).Nodup ∧
    loadMesh triVerts [[0, 1, 2]] = some triQ ∧
    triQ.edges[0]? = some { head := some 1, face := some 0, pair := some 3,
                            prev := some 2, next := some 1 } ∧
    (∃ j e2, ({ head := some 1, face := some 0, pair := some 3,
                prev := some 2, next := some 1 } : HEdge).pair = some j ∧
      triQ.edges[j]? = some e2 ∧ e2.pair = some 0) :=
  ⟨by decide, by decide, by decide, by decide, by decide,
   constructed_pair_involution triVerts [[0, 1, 2]] (by decide) (by decide)
     (by decide) triQ (by decide) 0
     { head := some 1, face := some 0, pair := some 3, prev := some 2, next := some 1 }
     (by decide)⟩

end ClaimPairInvolution

section FaceCycleLemmas

variable {α : Type}

theorem keysOf_cons_length (ids : List Nat) (rest : List (List Nat)) :
    (keysOf (ids :: rest)).length = ids.length + (keysOf rest).length := by
  show (faceKeys ids ++ keysOf rest).length = _
  rw [List.length_append, faceKeys_length]

theorem baseOf_cons_succ (ids : List Nat) (rest : List (List Nat)) (fi : Nat) :
    baseOf (ids :: rest) (fi + 1) = ids.length + baseOf rest fi := by
  unfold baseOf
  rw [List.take_succ_cons, List.map_cons, List.sum_cons]

theorem baseOf_zero (F : List (List Nat)) : baseOf F 0 = 0 := rfl

theorem baseOf_add_le : ∀ (F : List (List Nat)) (fi : Nat), fi < F.length →
    baseOf F fi + (F.getD fi []).length ≤ (keysOf F).length := by
  intro F
  induction F with
  | nil => intro fi h; simp at h
  | cons ids rest ih =>
    intro fi h
    cases fi with
    | zero =>
      rw [baseOf_zero, keysOf_cons_length]
      show 0 + ids.length ≤ _
      omega
    | succ fi2 =>
      rw [baseOf_cons_succ, keysOf_cons_length]
      have := ih fi2 (by simpa using h)
      show ids.length + baseOf rest fi2 + (rest.getD fi2 []).length ≤ _
      omega

theorem faces3_getElem? : ∀ (F : List (List Nat)) (b fi : Nat), fi < F.length →
    (faces3 b F)[fi]? = some (face3 (b + baseOf F fi) (F.getD fi [])) := by
  intro F
  induction F with
  | nil => intro b fi h; simp at h
  | cons ids rest ih =>
    intro b fi h
    cases fi with
    | zero =>
      show (face3 b ids :: faces3 (b + ids.length) rest)[0]? = _
      rw [List.getElem?_cons_zero, baseOf_zero, Nat.add_zero]
      rfl
    | succ fi2 =>
      show (face3 b ids :: faces3 (b + ids.length) rest)[fi2 + 1]? = _
      rw [List.getElem?_cons_succ, ih (b + ids.length) fi2 (by simpa using h),
          baseOf_cons_succ]
      have harith : b + ids.length + baseOf rest fi2
          = b + (ids.length + baseOf rest fi2) := by omega
      rw [harith]
      rfl

theorem edges3_block_getElem? : ∀ (F : List (List Nat)) (b f0 fi k : Nat),
    fi < F.length → k < (F.getD fi []).length →
    (edges3 b f0 F)[baseOf F fi + k]?
      = (linkedBlock (b + baseOf F fi) (f0 + fi) (F.getD fi []))[k]? := by
  intro F
  induction F with
  | nil => intro b f0 fi k h hk; simp at h
  | cons ids rest ih =>
    intro b f0 fi k h hk
    cases fi with
    | zero =>
      rw [baseOf_zero, Nat.zero_add, Nat.add_zero, Nat.add_zero]
      show (linkedBlock b f0 ids ++ edges3 (b + ids.length) (f0 + 1) rest)[k]? = _
      rw [List.getElem?_append_left (by rw [linkedBlock_length]; exact hk)]
      rfl
    | succ fi2 =>
      have hfi2 : fi2 < rest.length := by simpa using h
      have hk2 : k < (rest.getD fi2 []).length := hk
      rw [baseOf_cons_succ]
      show (linkedBlock b f0 ids ++ edges3 (b + ids.length) (f0 + 1) rest)[ids.length + baseOf rest fi2 + k]? = _
      rw [List.getElem?_append_right (by rw [linkedBlock_length]; omega)]
      rw [linkedBlock_length]
      have hidx : ids.length + baseOf rest fi2 + k - ids.length
          = baseOf rest fi2 + k := by omega
      rw [hidx, ih (b + ids.length) (f0 + 1) fi2 k hfi2 hk2]
      have h1 : b + ids.length + baseOf rest fi2
          = b + (ids.length + baseOf rest fi2) := by omega
      have h2 : f0 + 1 + fi2 = f0 + (fi2 + 1) := by omega
      rw [h1, h2]
      rfl

theorem optMapM_exists {β γ : Type} (f : β → Option γ) :
    ∀ (l : List β), (∀ a ∈ l, ∃ b, f a = some b) →
      ∃ ys, l.mapM f = some ys ∧ ys.length = l.length := by
  intro l
  induction l with
  | nil => intro h; exact ⟨[], rfl, rfl⟩
  | cons a rest ih =>
    intro h
    obtain ⟨b, hb⟩ := h a (List.mem_cons_self a rest)
    obtain ⟨ys, hys, hlen⟩ := ih (fun x hx => h x (List.mem_cons_of_mem a hx))
    refine ⟨b :: ys, ?_, by simp [hlen]⟩
    rw [List.mapM_cons, hb, hys]
    rfl

theorem nextIter_block [LinearOrderedField α] (m : Mesh α) (base n : Nat)
    (hedge : ∀ t, t < n → ∃ e, m.edges[base + t]? = some e ∧
        e.next = some (base + (t + 1) % n)) :
    ∀ (k j : Nat), j < n → nextIter m k (base + j) = some (base + (j + k) % n) := by
  intro k
  induction k with
  | zero =>
    intro j hj
    show some (base + j) = some (base + (j + 0) % n)
    rw [Nat.add_zero, Nat.mod_eq_of_lt hj]
  | succ k ih =>
    intro j hj
    obtain ⟨e, he1, he2⟩ := hedge j hj
    have hred : nextIter m (k + 1) (base + j)
        = (m.edges[base + j]? >>= fun he => he.next >>= fun nx =>
            nextIter m k nx) := rfl
    rw [hred, he1]
    simp only [Option.bind_eq_bind, Option.some_bind]
    rw [he2]
    simp only [Option.bind_eq_bind, Option.some_bind]
    have hmod : (j + 1) % n < n := Nat.mod_lt _ (by omega)
    rw [ih ((j + 1) % n) hmod]
    have harith : ((j + 1) % n + k) % n = (j + (k + 1)) % n := by
      rw [Nat.mod_add_mod]
      have : j + 1 + k = j + (k + 1) := by omega
      rw [this]
    rw [harith]

theorem faceChain_block [LinearOrderedField α] (m : Mesh α) (base n : Nat)
    (hn : 0 < n)
    (hedge : ∀ t, t < n → ∃ e, m.edges[base + t]? = some e ∧
        e.next = some (base + (t + 1) % n)) :
    ∀ (d j fuel : Nat), j + d = n - 1 → n - 1 - j < fuel →
      faceChainAux m (base + (n - 1)) (some (base + j)) fuel
        = some (List.range' (base + j) (n - 1 - j)) := by
  intro d
  induction d with
  | zero =>
    intro j fuel hjd hfuel
    have hj : j = n - 1 := by omega
    subst hj
    cases fuel with
    | zero => omega
    | succ f =>
      show (if (some (base + (n - 1)) : Option Nat) = some (base + (n - 1))
            then some [] else _) = _
      rw [if_pos rfl]
      have : n - 1 - (n - 1) = 0 := by omega
      rw [this]
      rfl
  | succ d ih =>
    intro j fuel hjd hfuel
    have hjlt : j < n - 1 := by omega
    cases fuel with
    | zero => omega
    | succ f =>
      have hne : (some (base + j) : Option Nat) ≠ some (base + (n - 1)) := by
        intro hc
        have : base + j = base + (n - 1) := Option.some.inj hc
        omega
      obtain ⟨e, he1, he2⟩ := hedge j (by omega)
      have hred : faceChainAux m (base + (n - 1)) (some (base + j)) (f + 1)
          = (if (some (base + j) : Option Nat) = some (base + (n - 1))
             then some []
             else
               ((some (base + j) : Option Nat) >>= fun c =>
                 m.edges[c]? >>= fun e =>
                   faceChainAux m (base + (n - 1)) e.next f >>= fun rest =>
                     some (c :: rest))) := rfl
      rw [hred, if_neg hne]
      simp only [Option.bind_eq_bind, Option.some_bind]
      rw [he1]
      simp only [Option.bind_eq_bind, Option.some_bind]
      rw [he2]
      have hmodeq : (j + 1) % n = j + 1 := Nat.mod_eq_of_lt (by omega)
      rw [hmodeq, ih (j + 1) f (by omega) (by omega)]
      simp only [Option.bind_eq_bind, Option.some_bind]
      have hsucc : n - 1 - j = (n - 1 - (j + 1)) + 1 := by omega
      rw [hsucc]
      rfl

theorem faces3_length : ∀ (F : List (List Nat)) (b : Nat),
    (faces3 b F).length = F.length := by
  intro F
  induction F with
  | nil => intro b; rfl
  | cons ids rest ih =>
    intro b
    show (face3 b ids :: faces3 (b + ids.length) rest).length = _
    simp [ih]

end FaceCycleLemmas

section ClaimFaceCycle

variable {α : Type}

/-- C7: in every mesh the loader builds from a well formed face
description, each face with a non null boundary edge has a next-walk
that returns to that edge after exactly as many steps as the face has
getVertices entries, never earlier, and every half edge visited on the
walk carries the face as its face reference. -/
theorem constructed_face_cycle [LinearOrderedField α]
    (vcs : List (Vec3 α × Vec3 α)) (fcs : List (List Nat))
    (hval : ∀ ids ∈ fcs, ∀ v ∈ ids, v < vcs.length)
    (hnodup : ∀ ids ∈ fcs, ids.Nodup)
    (hkeys : (keysOf fcs).Nodup)
    (m : Mesh α) (hm : loadMesh vcs fcs = some m) :
    ∀ (fi : Nat) (F : HFace) (e0 : Nat), m.faces[fi]? = some F → F.h = some e0 →
      ∃ vs, faceGetVertices m fi = some vs ∧ 0 < vs.length ∧
        nextIter m vs.length e0 = some e0 ∧
        (∀ k, 0 < k → k < vs.length → nextIter m k e0 ≠ some e0) ∧
        (∀ k, k < vs.length → ∃ t e, nextIter m k e0 = some t ∧
            m.edges[t]? = some e ∧ e.face = some fi) := by
  obtain ⟨hfaces, hlen, hfields, -⟩ := loadMesh_shape vcs fcs hval hnodup hkeys m hm
  intro fi F e0 hFm hFh
  have hFh0 := hFh
  have hF3 : (faces3 0 fcs)[fi]? = some F := by rw [← hfaces]; exact hFm
  have hfi3 : fi < (faces3 0 fcs).length := (List.getElem?_eq_some.mp hF3).1
  have hfi : fi < fcs.length := by rwa [faces3_length] at hfi3
  have hFeq : F = face3 (0 + baseOf fcs fi) (fcs.getD fi []) :=
    Option.some.inj (hF3.symm.trans (faces3_getElem? fcs 0 fi hfi))
  have hface3 : F.h = if (fcs.getD fi []).length = 0 then none
      else some (0 + baseOf fcs fi + (fcs.getD fi []).length - 1) := by
    rw [hFeq]
    rfl
  by_cases h0 : (fcs.getD fi []).length = 0
  · rw [hface3, if_pos h0] at hFh
    exact absurd hFh (by simp)
  · rw [hface3, if_neg h0] at hFh
    have hn : 0 < (fcs.getD fi []).length := Nat.pos_of_ne_zero h0
    have he0 : e0 = baseOf fcs fi + ((fcs.getD fi []).length - 1) := by
      have := Option.some.inj hFh
      omega
    subst he0
    have hbn := baseOf_add_le fcs fi hfi
    have hedge : ∀ t, t < (fcs.getD fi []).length →
        ∃ e, m.edges[baseOf fcs fi + t]? = some e ∧
          e.next = some (baseOf fcs fi + (t + 1) % (fcs.getD fi []).length) ∧
          e.face = some fi := by
      intro t ht
      have hiE0 : baseOf fcs fi + t < (keysOf fcs).length := by omega
      obtain ⟨e3, x, he3, hme⟩ := hfields (baseOf fcs fi + t) hiE0
      have hblock := edges3_block_getElem? fcs 0 0 fi t hfi ht
      rw [linkedBlock_getElem? (0 + baseOf fcs fi) (0 + fi) (fcs.getD fi []) t ht]
        at hblock
      simp only [Nat.zero_add] at hblock
      have he3eq : e3 =
          { head := some ((fcs.getD fi []).getD
              ((t + 1) % (fcs.getD fi []).length) 0),
            face := some fi, pair := none,
            next := some (baseOf fcs fi + (t + 1) % (fcs.getD fi []).length),
            prev := some (baseOf fcs fi
              + (t + (fcs.getD fi []).length - 1) % (fcs.getD fi []).length) } :=
        Option.some.inj (he3.symm.trans hblock)
      refine ⟨setPairF (some x) e3, hme, ?_, ?_⟩
      · rw [he3eq]
        rfl
      · rw [he3eq]
        rfl
    have hedge2 : ∀ t, t < (fcs.getD fi []).length →
        ∃ e, m.edges[baseOf fcs fi + t]? = some e ∧
          e.next = some (baseOf fcs fi + (t + 1) % (fcs.getD fi []).length) :=
      fun t ht => (hedge t ht).imp (fun e h => ⟨h.1, h.2.1⟩)
    have hn1lt : (fcs.getD fi []).length - 1 < (fcs.getD fi []).length := by omega
    obtain ⟨eS, heS1, heS2, heS3⟩ := hedge ((fcs.getD fi []).length - 1) hn1lt
    have hwrap : ((fcs.getD fi []).length - 1 + 1) % (fcs.getD fi []).length = 0 := by
      have h1 : (fcs.getD fi []).length - 1 + 1 = (fcs.getD fi []).length := by omega
      rw [h1, Nat.mod_self]
    rw [hwrap] at heS2
    have hchain := faceChain_block m (baseOf fcs fi) (fcs.getD fi []).length hn
      hedge2 ((fcs.getD fi []).length - 1) 0 (m.edges.length + 1)
      (by omega) (by omega)
    have hredE : faceGetEdges m fi
        = (m.faces[fi]? >>= fun F2 =>
            match F2.h with
            | none => some []
            | some h1 =>
              (m.edges[h1]? >>= fun e =>
                faceChainAux m h1 e.next (m.edges.length + 1) >>= fun rest =>
                  some (h1 :: rest))) := rfl
    have hGE : faceGetEdges m fi
        = some ((baseOf fcs fi + ((fcs.getD fi []).length - 1))
            :: List.range' (baseOf fcs fi + 0) ((fcs.getD fi []).length - 1 - 0)) := by
      have hstep1 : faceGetEdges m fi
          = (m.edges[baseOf fcs fi + ((fcs.getD fi []).length - 1)]? >>= fun e =>
              faceChainAux m (baseOf fcs fi + ((fcs.getD fi []).length - 1)) e.next
                (m.edges.length + 1) >>= fun rest =>
              some ((baseOf fcs fi + ((fcs.getD fi []).length - 1)) :: rest)) := by
        rw [hredE, hFm]
        simp only [Option.bind_eq_bind, Option.some_bind]
        rw [hFh0]
      rw [hstep1, heS1]
      simp only [Option.bind_eq_bind, Option.some_bind]
      rw [heS2, hchain]
      simp only [Option.bind_eq_bind, Option.some_bind]
    have hes : ∀ c ∈ ((baseOf fcs fi + ((fcs.getD fi []).length - 1))
        :: List.range' (baseOf fcs fi + 0) ((fcs.getD fi []).length - 1 - 0)),
        ∃ b, (m.edges[c]?).map HEdge.head = some b := by
      intro c hc
      rcases List.mem_cons.mp hc with hc1 | hc2
      · subst hc1
        rw [heS1]
        exact ⟨eS.head, rfl⟩
      · have hcr := List.mem_range'_1.mp hc2
        have hclo : baseOf fcs fi ≤ c := by omega
        have hchi : c - baseOf fcs fi < (fcs.getD fi []).length := by omega
        obtain ⟨e, he1, -⟩ := hedge2 (c - baseOf fcs fi) hchi
        have hceq : baseOf fcs fi + (c - baseOf fcs fi) = c := by omega
        rw [hceq] at he1
        rw [he1]
        exact ⟨e.head, rfl⟩
    obtain ⟨vs, hvs, hvslen⟩ := optMapM_exists _ _ hes
    have hvsn : vs.length = (fcs.getD fi []).length := by
      rw [hvslen]
      simp only [List.length_cons, List.length_range']
      omega
    refine ⟨vs, ?_, ?_, ?_, ?_, ?_⟩
    · have hredV : faceGetVertices m fi
          = (faceGetEdges m fi >>= fun es =>
              es.mapM (fun c => (m.edges[c]?).map HEdge.head)) := rfl
      rw [hredV, hGE]
      simp only [Option.bind_eq_bind, Option.some_bind]
      exact hvs
    · rw [hvsn]
      exact hn
    · rw [hvsn]
      rw [nextIter_block m (baseOf fcs fi) (fcs.getD fi []).length hedge2
        (fcs.getD fi []).length ((fcs.getD fi []).length - 1) (by omega)]
      have harith : ((fcs.getD fi []).length - 1 + (fcs.getD fi []).length)
          % (fcs.getD fi []).length = (fcs.getD fi []).length - 1 := by
        rw [Nat.add_mod_right]
        exact Nat.mod_eq_of_lt (by omega)
      rw [harith]
    · intro k hk0 hkn
      rw [hvsn] at hkn
      rw [nextIter_block m (baseOf fcs fi) (fcs.getD fi []).length hedge2
        k ((fcs.getD fi []).length - 1) (by omega)]
      intro hc
      have h1 : baseOf fcs fi
            + ((fcs.getD fi []).length - 1 + k) % (fcs.getD fi []).length
          = baseOf fcs fi + ((fcs.getD fi []).length - 1) := Option.some.inj hc
      have h3 : (fcs.getD fi []).length - 1 + k
          = (fcs.getD fi []).length + (k - 1) := by omega
      have h4 : ((fcs.getD fi []).length - 1 + k) % (fcs.getD fi []).length
          = k - 1 := by
        rw [h3, Nat.add_mod_left]
        exact Nat.mod_eq_of_lt (by omega)
      omega
    · intro k hkn
      rw [hvsn] at hkn
      have hni := nextIter_block m (baseOf fcs fi) (fcs.getD fi []).length hedge2
        k ((fcs.getD fi []).length - 1) (by omega)
      have hjlt : ((fcs.getD fi []).length - 1 + k) % (fcs.getD fi []).length
          < (fcs.getD fi []).length := Nat.mod_lt _ (by omega)
      obtain ⟨e, he1, -, he3⟩ := hedge
        (((fcs.getD fi []).length - 1 + k) % (fcs.getD fi []).length) hjlt
      exact ⟨baseOf fcs fi
          + ((fcs.getD fi []).length - 1 + k) % (fcs.getD fi []).length,
        e, hni, he1, he3⟩

attribute [local semireducible] Rat.mul Rat.add Rat.sub Rat.inv

/-- Witness for C7: face 0 of the loaded triangle mesh has boundary edge
2, and the theorem instantiates to its three-step next cycle. -/
theorem constructed_face_cycle_witness :
    ((∀ ids ∈ [[0, 1, 2]], ∀ v ∈ ids, v < triVerts.length) ∧
     (∀ ids ∈ [[0, 1, 2]], List.Nodup ids) ∧
     (keysOf [[0, 1, 2]]).Nodup ∧
     loadMesh triVerts [[0, 1, 2]] = some triQ ∧
     triQ.faces[0]? = some { h := some 2 }) ∧
    (∃ vs, faceGetVertices triQ 0 = some vs ∧ 0 < vs.length ∧
      nextIter triQ vs.length 2 = some 2 ∧
      (∀ k, 0 < k → k < vs.length → nextIter triQ k 2 ≠ some 2) ∧
      (∀ k, k < vs.length → ∃ t e, nextIter triQ k 2 = some t ∧
          triQ.edges[t]? = some e ∧ e.face = some 0)) :=
  ⟨⟨by decide, by decide, by decide, by decide, by decide⟩,
   constructed_face_cycle triVerts [[0, 1, 2]] (by decide) (by decide) (by decide)
     triQ (by decide) 0 { h := some 2 } 2 (by decide) rfl⟩

end ClaimFaceCycle
